import Mathlib

/-!
Shallow embedding of `src/win32/path_w32.c` (libgit2, whoisj fork).

Native wide-character path buffers (`wchar_t *`, NUL-terminated) are
modelled as `List Char`: the list holds the occupied characters before the
terminating NUL.  Pointer offsets become `Nat` indices / `List.drop`.
-/

namespace PathW32

/-- Models `path__is_dirsep(p)`: `(p) == '/' || (p) == '\\'`. -/
def path__is_dirsep (c : Char) : Bool := c = '/' || c = '\\'

/-- Models `git__isalpha` (ASCII letter, as used for the drive-letter test). -/
def git__isalpha (c : Char) : Bool :=
  ('a' ≤ c && c ≤ 'z') || ('A' ≤ c && c ≤ 'Z')

/-- Models `path__is_absolute(p)`: a drive letter, a colon and a separator
(`git__isalpha(p[0]) && p[1] == ':' && (p[2] == '\\' || p[2] == '/')`).
Reading past the end of a shorter string hits the NUL terminator and the
test fails, which the `match` mirrors. -/
def path__is_absolute : List Char → Bool
  | a :: b :: c :: _ => git__isalpha a && b = ':' && (c = '\\' || c = '/')
  | _ => false

/-- Models `path__is_nt_namespace(p)`: the four-unit marker `\\?\`, spelled either
all-backslash or all-slash (mixed spellings do not match). -/
def path__is_nt_namespace : List Char → Bool
  | a :: b :: c :: d :: _ =>
      (a = '\\' && b = '\\' && c = '?' && d = '\\') ||
      (a = '/' && b = '/' && c = '?' && d = '/')
  | _ => false

/-- Models `path__is_unc(p)`: two leading separators of the same spelling. -/
def path__is_unc : List Char → Bool
  | a :: b :: _ => (a = '\\' && b = '\\') || (a = '/' && b = '/')
  | _ => false

/-- Models `path__skip_server`: returns the offset just past the first directory
separator, or the string's length when it has no separator. -/
def path__skip_server : List Char → Nat
  | [] => 0
  | c :: rest => if path__is_dirsep c then 1 else path__skip_server rest + 1

/-- Models `path__skip_prefix`: classify the prefix and return the root-boundary
offset (the C function returns a pointer; we return its distance from the
start of the buffer). -/
def path__skip_pfx (p : List Char) : Nat :=
  if path__is_nt_namespace p then
    if (p.drop 4).take 4 = ['U', 'N', 'C', '\\'] then
      8 + path__skip_server ((p.drop 4).drop 4)
    else if path__is_absolute (p.drop 4) then 4 + 3
    else 4
  else if path__is_absolute p then 3
  else if path__is_unc p then 2 + path__skip_server (p.drop 2)
  else 0

/-- The in-prefix "unposixify" loop: `/` becomes `\`. -/
def posixToNt (c : Char) : Char := if c = '/' then '\\' else c

/-- Offset of the first directory separator in the remaining input (the
inner `for (next = from; ...)` scan), or the input's length when none. -/
def nextSep : List Char → Nat
  | [] => 0
  | c :: rest => if path__is_dirsep c then 0 else nextSep rest + 1

/-- The `..` backup: `while (to > base && to[-1] == '\\') to--;` then
`while (to > base && to[-1] != '\\') to--;`, acting on the output written
after the root boundary. -/
def backUp (acc : List Char) : List Char :=
  (((acc.reverse.dropWhile (fun c => c = '\\')).dropWhile
      (fun c => c ≠ '\\'))).reverse

/-- The final `while (to > base && to[-1] == '\\') to--;` strip. -/
def stripTrailingBackslash (l : List Char) : List Char :=
  (l.reverse.dropWhile (fun c => c = '\\')).reverse

/-- The segment-collapsing loop of `git_win32_path_canonicalize`
(`while (*from)`).  `acc` is the output written after the root boundary
(the region `[base, to)`), `rest` is the unread input (`from` onwards).
Each step takes one segment up to the next separator; a `.` segment is
dropped, a `..` segment backs the output up one segment (a no-op when
the output is already empty, i.e. `to == base`), any other segment is
appended, followed by a single `\` when a separator followed it and the
segment is non-empty (this is the `*next == '\\' && *from != '\\'` test;
the separator at `next` has just been normalized to `\`).  The read
cursor then steps past the separator (when present) and skips any
following run of backslashes (`while (*from == '\\') from++`); when the
segment ran to the end of the string, `rest₁.tail = []` likewise ends
the walk.  The C loop terminates because every iteration strictly
advances `from`; we make that measure an explicit `fuel` argument,
instantiated with the input's length at the call site. -/
def canonSegs : Nat → List Char → List Char → List Char
  | 0, acc, _ => acc
  | fuel + 1, acc, rest =>
    if rest = [] then acc
    else
      let n := nextSep rest
      let seg := rest.take n
      let rest₁ := rest.drop n
      let rest₂ := rest₁.tail.dropWhile (fun c => c = '\\')
      let acc' :=
        if seg = ['.'] then acc
        else if seg = ['.', '.'] then backUp acc
        else acc ++ seg ++ (if rest₁ ≠ [] ∧ seg ≠ [] then ['\\'] else [])
      canonSegs fuel acc' rest₂

/-- Models `git_win32_path_canonicalize`: classify the prefix, normalize its
separators, collapse the remaining segments in place, strip trailing
backslashes.  Returns the new buffer contents (the C function returns
`to - path`, which is the length of this list). -/
def git_win32_path_canonicalize (p : List Char) : List Char :=
  ((p.take (path__skip_pfx p)).map posixToNt) ++
    stripTrailingBackslash
      (canonSegs (p.drop (path__skip_pfx p)).length []
        (p.drop (path__skip_pfx p)))

/-! ## Text conversion and current-directory retrieval -/

/-- Models from the spec: `git__utf8_to_16` converts caller text to the
native wide encoding.  Both encodings are modelled as `List Char`, so a
well-formed conversion is the identity; `EncodingError` and capacity
failures (`MAX_PATH` overflow) are outside the model. -/
def git__utf8_to_16 (l : List Char) : List Char := l

/-- Models from the spec: `git__utf16_to_8` converts a native wide string
to caller text; identity under the `List Char` model of both encodings.
Its length-measuring mode (`git__utf16_to_8(NULL, 0, s)`) is this list's
length. -/
def git__utf16_to_8 (l : List Char) : List Char := l

/-- Models `PATH__NT_NAMESPACE` (`L"\\\\?\\"`). -/
def PATH__NT_NAMESPACE : List Char := ['\\', '\\', '?', '\\']

/-- Models `path__cwd`: retrieves the current working directory.  The
ambient `GetCurrentDirectoryW` state is made an explicit argument `cwd`;
the function strips the `\\?\` marker the OS may echo back.  Retrieval
failure (`EACCES`/`ENOENT`/`ENAMETOOLONG`) is outside the model. -/
def path__cwd (cwd : List Char) : List Char :=
  if cwd.take 4 = PATH__NT_NAMESPACE then cwd.drop 4 else cwd

/-- Models `git_win32_path__cwd`: retrieves the working directory and, when
it is a UNC path (leading `\\`), swallows one leading backslash and
splices `UNC` in front (`out[0]='U'; out[1]='N'; out[2]='C'` after a
2-unit shift).  The `MAX_PATH` headroom checks are outside the model. -/
def git_win32_path__cwd (cwd : List Char) : List Char :=
  let out := path__cwd cwd
  if out.take 2 = ['\\', '\\'] then ['U', 'N', 'C'] ++ out.drop 1 else out

/-- Models `git_win32_path_from_utf8`: build an NT-prefixed native path
from caller text, dispatching on the text's own prefix form, then
canonicalize the whole buffer.  `cwd` is the explicit
current-working-directory capability (consulted by the rooted-without-
drive and plain-relative branches); `none` models the `ENOENT` failure
when the retrieved working directory is not drive-absolute. -/
def git_win32_path_from_utf8 (cwd : List Char) (src : List Char) :
    Option (List Char) :=
  if path__is_absolute src then
    some (git_win32_path_canonicalize
      (PATH__NT_NAMESPACE ++ git__utf8_to_16 src))
  else if path__is_nt_namespace src then
    some (git_win32_path_canonicalize
      (PATH__NT_NAMESPACE ++ git__utf8_to_16 (src.drop 4)))
  else if path__is_unc src then
    some (git_win32_path_canonicalize
      (PATH__NT_NAMESPACE ++ ['U', 'N', 'C', '\\'] ++
        git__utf8_to_16 (src.drop 2)))
  else if src.head? = some '\\' ∨ src.head? = some '/' then
    let d := path__cwd cwd
    if path__is_absolute d then
      some (git_win32_path_canonicalize
        (PATH__NT_NAMESPACE ++ (d.take 2 ++ git__utf8_to_16 src)))
    else none
  else
    some (git_win32_path_canonicalize
      (PATH__NT_NAMESPACE ++ git_win32_path__cwd cwd ++ ['\\'] ++
        git__utf8_to_16 src))

/-- Models from the spec: `git_path_mkposix` normalizes separators to the
portable form (`\` becomes `/`); it lives outside the shown sources. -/
def git_path_mkposix (l : List Char) : List Char :=
  l.map (fun c => if c = '\\' then '/' else c)

/-- Models `git_win32_path_to_utf8`: strip the `\\?\` marker, rewrite
`\\?\UNC\server\share` to `\\server\share`, convert to caller text and
normalize separators to the portable form. -/
def git_win32_path_to_utf8 (src : List Char) : List Char :=
  if path__is_nt_namespace src then
    let s := src.drop 4
    if s.take 4 = ['U', 'N', 'C', '\\'] then
      git_path_mkposix (['\\', '\\'] ++ git__utf16_to_8 (s.drop 4))
    else
      git_path_mkposix (git__utf16_to_8 s)
  else
    git_path_mkposix (git__utf16_to_8 src)

/-! ## Reparse-point resolution -/

/-- Tag of a reparse metadata block (`reparse_buf->ReparseTag`):
`IO_REPARSE_TAG_SYMLINK`, `IO_REPARSE_TAG_MOUNT_POINT`, or any other
(unrecognized) tag. -/
inductive ReparseTag
  | symlink
  | mountPoint
  | other
deriving DecidableEq, Repr

/-- A reparse metadata block as read by `DeviceIoControl`, after the
tag-dependent extraction of the substitute-name substring: `target` is
the wide string of `target_len` units located by the
`SubstituteNameOffset`/`SubstituteNameLength` pair of the symlink or
mount-point variant. -/
structure ReparseData where
  tag : ReparseTag
  target : List Char
deriving DecidableEq, Repr

/-- Errno values assigned by `git_win32_path_readlink_w`. -/
inductive WinErrno
  | ENOENT
  | EINVAL
deriving DecidableEq, Repr

/-- Observable outcome of `git_win32_path_readlink_w`: the `int` return
value, the target stored into `dest` (`none` when the buffer is left
unwritten), and the errno assignment the call performed (`none` when the
shown code leaves errno untouched). -/
structure ReadlinkResult where
  ret : Int
  dest : Option (List Char)
  errno : Option WinErrno
deriving DecidableEq, Repr

/-- Models from the spec: `GIT_WIN_PATH_UTF16`, the fixed capacity in wide
units of a `git_win32_path` buffer (its header is not among the shown
sources; the concrete value is the conventional `MAX_PATH + 1`). -/
def GIT_WIN_PATH_UTF16 : Nat := 261

/-- Models `path_is_volume`: the target names a mounted volume when it is
non-empty and begins with the reserved 11-unit literal
`\??\Volume{` (`wcsncmp(target, L"\\??\\Volume{", 11) == 0`). -/
def path_is_volume (target : List Char) : Bool :=
  !target.isEmpty &&
    decide (target.take 11 =
      ['\\', '?', '?', '\\', 'V', 'o', 'l', 'u', 'm', 'e', '\x7b'])

/-- Models from the spec: `git_win32__canonicalize_path` (not among the
shown sources) puts the extracted reparse target through path
canonicalization — the spec says the target "is itself passed through
canonicalization" — which we model with the embedded canonicalizer. -/
def git_win32__canonicalize_path (l : List Char) : List Char :=
  git_win32_path_canonicalize l

/-- Models `git_win32_path_readlink_w`.  The two OS calls are made
explicit inputs: `openOk` is `CreateFileW`'s success, and `ioctl` is the
reparse block `DeviceIoControl` produced (`none` when the query failed).
`ReparseData.target` is the substitute name already extracted by the
tag-appropriate arm of the `switch`; an unrecognized tag is `.other`.
A volume-mount target fails with `EINVAL` before anything is stored;
otherwise a non-empty target is canonicalized and, when it fits the
destination's capacity, copied out with its length returned. -/
def git_win32_path_readlink_w (openOk : Bool) (ioctl : Option ReparseData) :
    ReadlinkResult :=
  if openOk = false then ⟨-1, none, some .ENOENT⟩
  else
    match ioctl with
    | none => ⟨-1, none, some .EINVAL⟩
    | some d =>
      match d.tag with
      | .other => ⟨-1, none, some .EINVAL⟩
      | _ =>
        if path_is_volume d.target then ⟨-1, none, some .EINVAL⟩
        else if d.target ≠ [] then
          let t := git_win32__canonicalize_path d.target
          if t.length < GIT_WIN_PATH_UTF16 then ⟨(t.length : Int), some t, none⟩
          else ⟨-1, none, none⟩
        else ⟨-1, none, none⟩

/-! ## Directory listing with stat emulation -/

/-- Models `PATH__MAX_UNC_LEN`. -/
def PATH__MAX_UNC_LEN : Nat := 32767

/-- POSIX type/permission bits as used by the listing code.  The values
are the conventional ones behind the `S_I*` macros of the (not shown)
POSIX emulation headers. -/
def S_IFMT : Nat := 0xF000

/-- Directory type bits (`S_IFDIR`). -/
def S_IFDIR : Nat := 0x4000

/-- Regular-file type bits (`S_IFREG`). -/
def S_IFREG : Nat := 0x8000

/-- Symbolic-link type bits (`S_IFLNK`). -/
def S_IFLNK : Nat := 0xA000

/-- Read-permission bit (`S_IREAD`). -/
def S_IREAD : Nat := 0x100

/-- Write-permission bit (`S_IWRITE`). -/
def S_IWRITE : Nat := 0x80

/-- Models `S_ISDIR(m)`: `(m & S_IFMT) == S_IFDIR`. -/
def S_ISDIR (m : Nat) : Bool := decide (m &&& S_IFMT = S_IFDIR)

/-- Models `S_ISREG(m)`. -/
def S_ISREG (m : Nat) : Bool := decide (m &&& S_IFMT = S_IFREG)

/-- Models `S_ISLNK(m)`. -/
def S_ISLNK (m : Nat) : Bool := decide (m &&& S_IFMT = S_IFLNK)

/-- Models from the spec: `git_path_is_dot_or_dotdotW` recognizes the `.`
and `..` pseudo-entries (helper outside the shown sources). -/
def git_path_is_dot_or_dotdotW (n : List Char) : Bool :=
  decide (n = ['.']) || decide (n = ['.', '.'])

/-- Models from the spec: `git__strncmp` (helper outside the shown
sources), C `strncmp` semantics over at most `n` units; the NUL
terminator of the shorter string participates as unit value 0. -/
def git__strncmp : List Char → List Char → Nat → Int
  | _, _, 0 => 0
  | [], [], _ + 1 => 0
  | [], b :: _, _ + 1 => -(b.toNat : Int)
  | a :: _, [], _ + 1 => (a.toNat : Int)
  | a :: as, b :: bs, n + 1 =>
    if a = b then git__strncmp as bs n else (a.toNat : Int) - (b.toNat : Int)

/-- ASCII lower-casing as used by the case-folding comparison. -/
def git__tolower (c : Char) : Char :=
  if 'A' ≤ c && c ≤ 'Z' then Char.ofNat (c.toNat + 32) else c

/-- Models from the spec: `git__strncasecmp` (helper outside the shown
sources), case-folding variant of `git__strncmp`. -/
def git__strncasecmp (a b : List Char) (n : Nat) : Int :=
  git__strncmp (a.map git__tolower) (b.map git__tolower) n

/-- One entry of a `git_path_with_stat` collection.  The C record also
carries three timestamps and device fields converted by helpers outside
the shown sources (`filetime_to_time_t`, `_getdrive`); no claim concerns
them, so the model keeps the path, the type/permission bits and the
emulated size. -/
structure git_path_with_stat where
  path : List Char
  st_mode : Nat
  st_size : Int
deriving DecidableEq, Repr

/-- Models from the spec: C `strcmp` over whole strings, the comparison
under `git_path_with_stat_cmp`. -/
def strcmpChars : List Char → List Char → Int
  | [], [] => 0
  | [], b :: _ => -(b.toNat : Int)
  | a :: _, [] => (a.toNat : Int)
  | a :: as, b :: bs =>
    if a = b then strcmpChars as bs else (a.toNat : Int) - (b.toNat : Int)

/-- Models `git_path_with_stat_cmp` (outside the shown sources): entries
compare by `strcmp` of their paths. -/
def git_path_with_stat_cmp (a b : git_path_with_stat) : Int :=
  strcmpChars a.path b.path

/-- Stable ordered insertion: the new element goes after every existing
element that does not compare strictly greater. -/
def git_vector__insert_sorted (x : git_path_with_stat) :
    List git_path_with_stat → List git_path_with_stat
  | [] => [x]
  | y :: ys =>
    if git_path_with_stat_cmp y x ≤ 0 then y :: git_vector__insert_sorted x ys
    else x :: y :: ys

/-- Models from the spec: `git_vector_sort` with the path comparator —
entries ordered by lexicographic path comparison, ties kept in input
enumeration order (stable). -/
def git_vector_sort (l : List git_path_with_stat) : List git_path_with_stat :=
  l.foldl (fun acc x => git_vector__insert_sorted x acc) []

/-- A raw enumeration record (`WIN32_FIND_DATAW dir->f`) restricted to the
fields the listing reads: the entry name, the two 32-bit size halves, and
the directory / read-only / reparse-point attribute flags. -/
structure WinFindData where
  cFileName : List Char
  nFileSizeHigh : Nat
  nFileSizeLow : Nat
  attrDirectory : Bool
  attrReadonly : Bool
  attrReparse : Bool
deriving DecidableEq, Repr

/-- Tail of the per-entry processing (source lines 418-424): append `/`
to a directory-typed path; drop an entry that is neither regular,
directory nor link typed; keep anything else as-is. -/
def dirload_finish (work_path : List Char) (st_mode : Nat) (st_size : Int) :
    Option git_path_with_stat :=
  if S_ISDIR st_mode then some ⟨work_path ++ ['/'], st_mode, st_size⟩
  else if ¬ S_ISREG st_mode ∧ ¬ S_ISLNK st_mode then none
  else some ⟨work_path, st_mode, st_size⟩

/-- Comparator selection (`strncomp = (flags & GIT_PATH_DIR_IGNORE_CASE) ?
git__strncasecmp : git__strncmp`). -/
def dirload_strncomp (ignore_case : Bool) : List Char → List Char → Nat → Int :=
  if ignore_case then git__strncasecmp else git__strncmp

/-- Per-entry body of the enumeration loop in
`git_win32_path_dirload_with_stat`: skip `.`/`..`; build
`work_path = repo_path + name`; apply the `start`/`end` range filters
over `min(bound length, path length)` units; derive the mode bits from
the attribute flags; for a reparse-tagged entry whose
`git_win32_path_readlink_w` call succeeds, override the type bits to
`S_IFLNK` (`(st_mode & ~S_IFMT) | S_IFLNK`; mode values fit 16 bits, so
`& ~S_IFMT` is `&&& 0x0FFF`) and set the size to the measured UTF-8
length of the target, aborting the listing when that measurement fails;
append `/` to a directory-typed path; drop entries that are neither
regular, directory nor link typed.  Returns `.ok none` when the entry is
skipped or dropped, `.error ()` for the abort. -/
def dirload_entry (repo_path : List Char)
    (start_stat end_stat : Option (List Char)) (ignore_case : Bool)
    (readlink : List Char → ReadlinkResult) (f : WinFindData) :
    Except Unit (Option git_path_with_stat) :=
  if git_path_is_dot_or_dotdotW f.cFileName then .ok none
  else
    let strncomp := dirload_strncomp ignore_case
    let work_path := repo_path ++ git__utf16_to_8 f.cFileName
    let path_len := work_path.length
    let start_len := (start_stat.getD []).length
    let end_len := (end_stat.getD []).length
    let cmp_len₁ := min start_len path_len
    if cmp_len₁ ≠ 0 ∧ strncomp work_path (start_stat.getD []) cmp_len₁ < 0 then
      .ok none
    else
      let cmp_len₂ := min end_len path_len
      if cmp_len₂ ≠ 0 ∧ strncomp work_path (end_stat.getD []) cmp_len₂ > 0 then
        .ok none
      else
        let fMode := S_IREAD |||
          (if f.attrDirectory then S_IFDIR else S_IFREG) |||
          (if f.attrReadonly then 0 else S_IWRITE)
        let size₀ : Int :=
          (((f.nFileSizeHigh <<< 32) ||| f.nFileSizeLow : Nat) : Int)
        let withLink : Except Unit (Nat × Int) :=
          if f.attrReparse then
            let r := readlink f.cFileName
            if r.ret ≥ 0 then
              let sz := (git__utf16_to_8 (r.dest.getD [])).length
              if (sz : Int) < 0 then .error ()
              else .ok ((fMode &&& 0x0FFF) ||| S_IFLNK, (sz : Int))
            else .ok (fMode, size₀)
          else .ok (fMode, size₀)
        match withLink with
        | .error e => .error e
        | .ok (st_mode, st_size) =>
          .ok (dirload_finish work_path st_mode st_size)

/-- The `while (dir)` enumeration loop: process each raw record in order,
appending kept entries (`git_vector_insert`), propagating an abort. -/
def dirload_loop (repo_path : List Char)
    (start_stat end_stat : Option (List Char)) (ignore_case : Bool)
    (readlink : List Char → ReadlinkResult) :
    List WinFindData → List git_path_with_stat →
      Except Unit (List git_path_with_stat)
  | [], acc => .ok acc
  | f :: fs, acc =>
    match dirload_entry repo_path start_stat end_stat ignore_case readlink f
      with
    | .error e => .error e
    | .ok none => dirload_loop repo_path start_stat end_stat ignore_case
        readlink fs acc
    | .ok (some ps) => dirload_loop repo_path start_stat end_stat ignore_case
        readlink fs (acc ++ [ps])

/-- Models `git_win32_path_dirload_with_stat`.  The directory enumeration
itself (`FindFirstFileExW`/`FindNextFileW`) is an OS query; its
successfully produced raw records are the explicit `entries` list, and
per-name reparse resolution is the explicit `readlink` oracle standing
for `git_win32_path_readlink_w` on the live filesystem (its result is
whatever that call returns for the entry's `cFileName`).  `ignore_case`
is the `GIT_PATH_DIR_IGNORE_CASE` flag.  After the loop the collection
is sorted by path.  Failures to parse or open the directory are outside
the model; the `repo_path` length guard and the per-entry abort are kept. -/
def git_win32_path_dirload_with_stat (path : List Char) (prefix_len : Nat)
    (ignore_case : Bool) (start_stat end_stat : Option (List Char))
    (readlink : List Char → ReadlinkResult) (entries : List WinFindData) :
    Except Unit (List git_path_with_stat) :=
  if (path.drop prefix_len).length > PATH__MAX_UNC_LEN then .error ()
  else
    match dirload_loop (path.drop prefix_len) start_stat end_stat ignore_case
        readlink entries [] with
    | .error e => .error e
    | .ok l => .ok (git_vector_sort l)

/-- A clean path segment: non-empty, free of directory separators, and
neither `.` nor `..`.  Segments of this shape pass through the
canonicalizer's collapse loop unchanged. -/
def okSeg (s : List Char) : Prop :=
  s ≠ [] ∧ (∀ c ∈ s, path__is_dirsep c = false) ∧ s ≠ ['.'] ∧ s ≠ ['.', '.']

/-- A clean segment string: one or more clean segments joined by single
directory separators, with no leading or trailing separator. -/
inductive CleanPath : List Char → Prop
  | single (s : List Char) (h : okSeg s) : CleanPath s
  | cons (s : List Char) (sep : Char) (rest : List Char) (h : okSeg s)
      (hsep : path__is_dirsep sep = true) (hr : CleanPath rest) :
      CleanPath (s ++ sep :: rest)

/-- Drive-absolute caller text whose remainder past `X:\` is clean (no
`.`/`..` segments, no redundant separators). -/
def AbsCleanText (t : List Char) : Prop :=
  path__is_absolute t = true ∧ (t.drop 3 = [] ∨ CleanPath (t.drop 3))

/-- UNC caller text (not in the extended-namespace spelling) whose
server/share remainder is clean. -/
def UncCleanText (t : List Char) : Prop :=
  path__is_unc t = true ∧ path__is_nt_namespace t = false ∧
  ((∀ c ∈ t.drop 2, path__is_dirsep c = false) ∨
   ∃ server sep more, t.drop 2 = server ++ sep :: more ∧
     (∀ c ∈ server, path__is_dirsep c = false) ∧
     path__is_dirsep sep = true ∧ (more = [] ∨ CleanPath more))

/-- Output shape of the collapse loop: one or more clean segments joined
by single backslashes (the `snoc` view makes the rightmost segment
explicit, which is how the `..` backup consumes it). -/
inductive NtSegs : List Char → Prop
  | single (s : List Char) (h : okSeg s) : NtSegs s
  | snoc (init s : List Char) (h : okSeg s) (hi : NtSegs init) :
      NtSegs (init ++ '\\' :: s)

/-- The path ends with exactly one trailing separator: it is some `w`
followed by `/`, where `w` itself does not end with a separator. -/
def endsWithOneSep (l : List Char) : Prop :=
  ∃ w, l = w ++ ['/'] ∧ ∀ c, w.getLast? = some c → path__is_dirsep c = false

/-- The path ends with no trailing separator. -/
def endsWithNoSep (l : List Char) : Prop :=
  ∀ c, l.getLast? = some c → path__is_dirsep c = false

/-! ## Basic facts about the embedded definitions -/

theorem length_dropWhile_le (p : Char → Bool) (l : List Char) :
    (l.dropWhile p).length ≤ l.length :=
  (List.dropWhile_suffix p).length_le

theorem path__skip_server_le (l : List Char) :
    path__skip_server l ≤ l.length := by
  induction l with
  | nil => simp [path__skip_server]
  | cons c rest ih =>
    unfold path__skip_server
    split
    · simp
    · simpa using Nat.succ_le_succ ih

theorem length_of_is_nt {p : List Char}
    (h : path__is_nt_namespace p = true) : 4 ≤ p.length := by
  unfold path__is_nt_namespace at h
  split at h
  · simp only [List.length_cons]; omega
  · simp at h

theorem length_of_is_absolute {p : List Char}
    (h : path__is_absolute p = true) : 3 ≤ p.length := by
  unfold path__is_absolute at h
  split at h
  · simp only [List.length_cons]; omega
  · simp at h

theorem length_of_is_unc {p : List Char}
    (h : path__is_unc p = true) : 2 ≤ p.length := by
  unfold path__is_unc at h
  split at h
  · simp only [List.length_cons]; omega
  · simp at h

theorem length_of_take_unc {q : List Char}
    (h : q.take 4 = ['U', 'N', 'C', '\\']) : 4 ≤ q.length := by
  have := congrArg List.length h
  simp [List.length_take] at this
  omega

theorem path__skip_pfx_le (p : List Char) : path__skip_pfx p ≤ p.length := by
  simp only [path__skip_pfx]
  split
  next h1 =>
    split
    next h2 =>
      have l4 := length_of_is_nt h1
      have l8 := length_of_take_unc h2
      have hs := path__skip_server_le ((p.drop 4).drop 4)
      simp only [List.length_drop] at l8 hs
      omega
    next h2 =>
      split
      next h3 =>
        have l4 := length_of_is_nt h1
        have l7 := length_of_is_absolute h3
        simp only [List.length_drop] at l7
        omega
      next h3 => exact length_of_is_nt h1
  next h1 =>
    split
    next h4 => exact length_of_is_absolute h4
    next h4 =>
      split
      next h5 =>
        have l2 := length_of_is_unc h5
        have hs := path__skip_server_le (p.drop 2)
        simp only [List.length_drop] at hs
        omega
      next h5 => exact Nat.zero_le _

theorem backUp_length_le (acc : List Char) :
    (backUp acc).length ≤ acc.length := by
  have h1 := length_dropWhile_le (fun c => c ≠ '\\')
    (acc.reverse.dropWhile (fun c => c = '\\'))
  have h2 := length_dropWhile_le (fun c => c = '\\') acc.reverse
  simp only [backUp, List.length_reverse] at *
  omega

theorem stripTrailingBackslash_length_le (l : List Char) :
    (stripTrailingBackslash l).length ≤ l.length := by
  have h := length_dropWhile_le (fun c => c = '\\') l.reverse
  simp only [stripTrailingBackslash, List.length_reverse] at *
  omega

theorem canonSegs_succ (f : Nat) (acc rest : List Char) (h : rest ≠ []) :
    canonSegs (f + 1) acc rest =
      canonSegs f
        (if rest.take (nextSep rest) = ['.'] then acc
         else if rest.take (nextSep rest) = ['.', '.'] then backUp acc
         else acc ++ rest.take (nextSep rest) ++
           (if rest.drop (nextSep rest) ≠ [] ∧ rest.take (nextSep rest) ≠ []
            then ['\\'] else []))
        ((rest.drop (nextSep rest)).tail.dropWhile (fun c => c = '\\')) := by
  rw [canonSegs, if_neg h]

theorem canonSegs_length_le (fuel : Nat) :
    ∀ (acc rest : List Char),
      (canonSegs fuel acc rest).length ≤ acc.length + rest.length := by
  induction fuel with
  | zero => intro acc rest; simp [canonSegs]
  | succ f ih =>
    intro acc rest
    by_cases hne : rest = []
    · rw [canonSegs, if_pos hne]; simp
    · rw [canonSegs_succ f acc rest hne]
      refine le_trans (ih _ _) ?_
      have ht : (rest.drop (nextSep rest)).tail.length
          = rest.length - nextSep rest - 1 := by
        rw [List.length_tail, List.length_drop]
      have hdw := length_dropWhile_le (fun c => c = '\\')
        (rest.drop (nextSep rest)).tail
      have htk : (rest.take (nextSep rest)).length
          = min (nextSep rest) rest.length := List.length_take _ _
      split_ifs with hdot hdotdot h3
      · omega
      · have := backUp_length_le acc
        omega
      · have hlt : ¬ (rest.length ≤ nextSep rest) :=
          fun hge => h3.1 (List.drop_eq_nil_of_le hge)
        simp only [List.length_append, List.length_cons, List.length_nil]
        omega
      · simp only [List.length_append, List.length_nil]
        omega

/-! ## Clean segment strings and the collapse loop -/

theorem canonSegs_nil (fuel : Nat) (acc : List Char) :
    canonSegs fuel acc [] = acc := by
  cases fuel <;> rfl

theorem not_dirsep_ne_slash {c : Char} (h : path__is_dirsep c = false) :
    c ≠ '/' := by
  intro hc; rw [hc] at h; simp [path__is_dirsep] at h

theorem not_dirsep_ne_backslash {c : Char} (h : path__is_dirsep c = false) :
    c ≠ '\\' := by
  intro hc; rw [hc] at h; simp [path__is_dirsep] at h

theorem posixToNt_of_not_dirsep {c : Char} (h : path__is_dirsep c = false) :
    posixToNt c = c := by
  simp [posixToNt, not_dirsep_ne_slash h]

theorem posixToNt_of_dirsep {c : Char} (h : path__is_dirsep c = true) :
    posixToNt c = '\\' := by
  simp [path__is_dirsep] at h
  rcases h with h | h <;> simp [posixToNt, h]

theorem map_posixToNt_id {s : List Char}
    (h : ∀ c ∈ s, path__is_dirsep c = false) : s.map posixToNt = s := by
  induction s with
  | nil => rfl
  | cons a t ih =>
    simp only [List.map_cons]
    rw [posixToNt_of_not_dirsep (h a (by simp)), ih (fun c hc => h c (by simp [hc]))]

theorem nextSep_all {s : List Char}
    (h : ∀ c ∈ s, path__is_dirsep c = false) : nextSep s = s.length := by
  induction s with
  | nil => rfl
  | cons a t ih =>
    have ha := h a (by simp)
    have iht := ih (fun c hc => h c (by simp [hc]))
    simp [nextSep, ha, iht]

theorem nextSep_append {s : List Char} {d : Char} (r : List Char)
    (h : ∀ c ∈ s, path__is_dirsep c = false) (hd : path__is_dirsep d = true) :
    nextSep (s ++ d :: r) = s.length := by
  induction s with
  | nil => simp [nextSep, hd]
  | cons a t ih =>
    have ha := h a (by simp)
    have iht := ih (fun c hc => h c (by simp [hc]))
    simp [nextSep, ha, iht]

theorem path__skip_server_all {s : List Char}
    (h : ∀ c ∈ s, path__is_dirsep c = false) :
    path__skip_server s = s.length := by
  induction s with
  | nil => rfl
  | cons a t ih =>
    have ha := h a (by simp)
    have iht := ih (fun c hc => h c (by simp [hc]))
    simp [path__skip_server, ha, iht]

theorem path__skip_server_append {s : List Char} {d : Char} (r : List Char)
    (h : ∀ c ∈ s, path__is_dirsep c = false) (hd : path__is_dirsep d = true) :
    path__skip_server (s ++ d :: r) = s.length + 1 := by
  induction s with
  | nil => simp [path__skip_server, hd]
  | cons a t ih =>
    have ha := h a (by simp)
    have iht := ih (fun c hc => h c (by simp [hc]))
    simp [path__skip_server, ha, iht]

theorem CleanPath.ne_nil {l : List Char} (h : CleanPath l) : l ≠ [] := by
  cases h with
  | single s hs => exact hs.1
  | cons s sep rest hs hsep hr => simp

theorem CleanPath.head_not_sep {l : List Char} (h : CleanPath l) :
    ∀ c, l.head? = some c → path__is_dirsep c = false := by
  induction h with
  | single s hs =>
    intro c hc
    cases s with
    | nil => exact absurd rfl hs.1
    | cons a t =>
      have hca : c = a := by simpa using hc.symm
      exact hca ▸ hs.2.1 a (by simp)
  | cons s sep rest hs hsep hr ih =>
    intro c hc
    cases s with
    | nil => exact absurd rfl hs.1
    | cons a t =>
      have hca : c = a := by simpa using hc.symm
      exact hca ▸ hs.2.1 a (by simp)

theorem CleanPath.getLast_not_sep {l : List Char} (h : CleanPath l) :
    ∀ c, l.getLast? = some c → path__is_dirsep c = false := by
  induction h with
  | single s hs =>
    intro c hc
    exact hs.2.1 c (List.mem_of_mem_getLast? hc)
  | cons s sep rest hs hsep hr ih =>
    intro c hc
    rw [List.getLast?_append_of_ne_nil _ (by simp)] at hc
    have : (sep :: rest) = [sep] ++ rest := rfl
    rw [this, List.getLast?_append_of_ne_nil _ hr.ne_nil] at hc
    exact ih c hc

theorem CleanPath.dropWhile_backslash {l : List Char} (h : CleanPath l) :
    l.dropWhile (fun c => c = '\\') = l := by
  cases hl : l with
  | nil => rfl
  | cons a t =>
    have ha : path__is_dirsep a = false :=
      h.head_not_sep a (by rw [hl]; rfl)
    rw [List.dropWhile_cons]
    simp [not_dirsep_ne_backslash ha]

theorem stripTrailingBackslash_clean {l : List Char} (h : CleanPath l) :
    stripTrailingBackslash l = l := by
  obtain ⟨a, t, hrev, hns⟩ :
      ∃ a t, l.reverse = a :: t ∧ path__is_dirsep a = false := by
    cases hrev : l.reverse with
    | nil => exact absurd (by simpa using congrArg List.reverse hrev) h.ne_nil
    | cons a t =>
      refine ⟨a, t, rfl, ?_⟩
      exact h.getLast_not_sep a (by rw [← List.head?_reverse, hrev]; rfl)
  unfold stripTrailingBackslash
  rw [hrev]
  rw [List.dropWhile_cons]
  rw [if_neg (by simp [not_dirsep_ne_backslash hns])]
  rw [← hrev, List.reverse_reverse]

theorem canonSegs_clean {rest : List Char} (hc : CleanPath rest) :
    ∀ fuel, rest.length ≤ fuel → ∀ acc,
      canonSegs fuel acc rest = acc ++ rest.map posixToNt := by
  induction hc with
  | single s hs =>
    intro fuel hf acc
    obtain ⟨f, rfl⟩ : ∃ f, fuel = f + 1 := by
      cases s with
      | nil => exact absurd rfl hs.1
      | cons a t => cases fuel with
        | zero => simp at hf
        | succ f => exact ⟨f, rfl⟩
    rw [canonSegs_succ f acc s hs.1]
    rw [nextSep_all hs.2.1]
    rw [List.take_length, List.drop_length]
    simp only [List.dropWhile_nil, List.tail_nil]
    rw [canonSegs_nil]
    rw [if_neg (by simpa using hs.2.2.1), if_neg (by simpa using hs.2.2.2)]
    rw [map_posixToNt_id hs.2.1]
    simp

  | cons s sep rest hs hsep hr ih =>
    intro fuel hf acc
    obtain ⟨f, rfl⟩ : ∃ f, fuel = f + 1 := by
      cases fuel with
      | zero => simp at hf
      | succ f => exact ⟨f, rfl⟩
    rw [canonSegs_succ f acc _ (by simp)]
    rw [nextSep_append _ hs.2.1 hsep]
    rw [List.take_left, List.drop_left]
    simp only [List.tail_cons]
    rw [hr.dropWhile_backslash]
    rw [if_neg (by simpa using hs.2.2.1), if_neg (by simpa using hs.2.2.2)]
    rw [if_pos ⟨by simp, hs.1⟩]
    rw [ih f (by simp at hf; omega) (acc ++ s ++ ['\\'])]
    rw [List.map_append, map_posixToNt_id hs.2.1]
    simp [posixToNt_of_dirsep hsep]

theorem git__isalpha_ne_slash {a : Char} (h : git__isalpha a = true) :
    a ≠ '/' := by
  intro hc; rw [hc] at h; simp [git__isalpha] at h

theorem unc_not_absolute {t : List Char} (h : path__is_unc t = true) :
    path__is_absolute t = false := by
  cases t with
  | nil => rfl
  | cons a t' =>
    cases t' with
    | nil => rfl
    | cons b t'' =>
      simp [path__is_unc] at h
      cases t'' with
      | nil => rfl
      | cons c r =>
        rcases h with ⟨h1, _⟩ | ⟨h1, _⟩ <;> subst h1 <;>
          simp [path__is_absolute, git__isalpha]

theorem CleanPath.map_posixToNt {l : List Char} (h : CleanPath l) :
    CleanPath (l.map posixToNt) := by
  induction h with
  | single s hs =>
    rw [map_posixToNt_id hs.2.1]
    exact CleanPath.single s hs
  | cons s sep rest hs hsep hr ih =>
    rw [List.map_append, List.map_cons, map_posixToNt_id hs.2.1,
      posixToNt_of_dirsep hsep]
    exact CleanPath.cons s '\\' _ hs (by simp [path__is_dirsep]) ih

/-- The canonicalizer on a buffer whose root boundary is exactly the
prefix `pre` and whose remainder is clean: the prefix is
separator-normalized in place and the remainder copied verbatim (up to
separator normalization). -/
theorem canonicalize_pfx_clean (pre rest : List Char)
    (hbase : path__skip_pfx (pre ++ rest) = pre.length)
    (hrest : rest = [] ∨ CleanPath rest) :
    git_win32_path_canonicalize (pre ++ rest) =
      pre.map posixToNt ++ rest.map posixToNt := by
  unfold git_win32_path_canonicalize
  rw [hbase, List.take_left, List.drop_left]
  rcases hrest with h | h
  · subst h
    simp [canonSegs_nil, stripTrailingBackslash]
  · rw [canonSegs_clean h rest.length le_rfl [], List.nil_append,
      stripTrailingBackslash_clean h.map_posixToNt]

theorem mkposix_map_posixToNt (l : List Char) :
    git_path_mkposix (l.map posixToNt) = git_path_mkposix l := by
  unfold git_path_mkposix
  rw [List.map_map]
  congr 1
  funext c
  by_cases h1 : c = '/'
  · simp [posixToNt, h1]
  · by_cases h2 : c = '\\' <;> simp [Function.comp, posixToNt, h1, h2]

theorem mkposix_of_no_backslash {l : List Char}
    (h : ∀ c ∈ l, path__is_dirsep c = false) : git_path_mkposix l = l := by
  unfold git_path_mkposix
  induction l with
  | nil => rfl
  | cons a t ih =>
    simp only [List.map_cons]
    rw [if_neg (not_dirsep_ne_backslash (h a (by simp))),
      ih (fun c hc => h c (by simp [hc]))]

/-! ## Claim theorems -/

/-- C9: `git_win32_path_canonicalize` never lengthens its buffer — the
returned length is at most the occupied length of the input string, so the
in-place rewrite stays within the storage the input already occupies. -/
theorem canonicalize_length_le (p : List Char) :
    (git_win32_path_canonicalize p).length ≤ p.length := by
  have hb := path__skip_pfx_le p
  have h1 := canonSegs_length_le (p.drop (path__skip_pfx p)).length []
    (p.drop (path__skip_pfx p))
  have h2 := stripTrailingBackslash_length_le
    (canonSegs (p.drop (path__skip_pfx p)).length [] (p.drop (path__skip_pfx p)))
  simp only [git_win32_path_canonicalize, List.length_append, List.length_map,
    List.length_take, List.length_drop, List.length_nil] at *
  omega

/-- C1: canonicalization never moves the write cursor before the root
boundary computed by prefix classification — the returned length is at
least the root-boundary offset, and the prefix region `[0, base)` of the
result is exactly the input's prefix with its separators normalized (so a
`..` arriving with the cursor at the boundary is absorbed and never
rewrites or shortens the root). -/
theorem canonicalize_never_escapes_root (p : List Char) :
    path__skip_pfx p ≤ (git_win32_path_canonicalize p).length ∧
    (git_win32_path_canonicalize p).take (path__skip_pfx p) =
      (p.take (path__skip_pfx p)).map posixToNt := by
  have hb := path__skip_pfx_le p
  have hlen : ((p.take (path__skip_pfx p)).map posixToNt).length
      = path__skip_pfx p := by
    simp [List.length_take]; omega
  constructor
  · simp only [git_win32_path_canonicalize, List.length_append, hlen]
    omega
  · have h := List.take_left ((p.take (path__skip_pfx p)).map posixToNt)
      (stripTrailingBackslash (canonSegs (p.drop (path__skip_pfx p)).length []
        (p.drop (path__skip_pfx p))))
    rw [hlen] at h
    exact h

/-- C2, counterexample: the buffer `/a/../../b` does not canonicalize to
`/b` (in either separator spelling) — the rooted-but-driveless input
classifies as relative with root boundary 0, and the leading separator
heads an empty segment which is consumed together with the separator
run. -/
theorem canonicalize_collapse_counterexample :
    git_win32_path_canonicalize "/a/../../b".toList ≠ "/b".toList ∧
    git_win32_path_canonicalize "/a/../../b".toList ≠ "\\b".toList := by
  decide

/-- C2, amended: `a/./b/../c` canonicalizes to `a\c` (the platform
spelling of `a/c`), and `/a/../../b` canonicalizes to `b` — the leading
separator is dropped (root boundary 0) and the excess `..` is absorbed
there. -/
theorem canonicalize_collapse_examples :
    git_win32_path_canonicalize "a/./b/../c".toList = "a\\c".toList ∧
    git_win32_path_canonicalize "/a/../../b".toList = "b".toList := by
  decide

/-- C4: whenever the reparse target extracted from a recognized (symlink
or mount-point) reparse block begins with the reserved volume-identifier
literal `\??\Volume{`, `git_win32_path_readlink_w` returns a negative
value with errno `EINVAL` and never stores a target string in the
destination buffer. -/
theorem readlink_rejects_volume (tag : ReparseTag) (target : List Char)
    (h1 : tag ≠ ReparseTag.other)
    (h2 : target.take 11 =
      ['\\', '?', '?', '\\', 'V', 'o', 'l', 'u', 'm', 'e', '\x7b']) :
    git_win32_path_readlink_w true (some ⟨tag, target⟩) =
      ⟨-1, none, some WinErrno.EINVAL⟩ := by
  have hne : target ≠ [] := by
    intro hz; rw [hz] at h2; simp at h2
  have hvol : path_is_volume target = true := by
    cases target with
    | nil => exact absurd rfl hne
    | cons a t => simp [path_is_volume, h2]
  cases tag with
  | symlink => simp [git_win32_path_readlink_w, hvol]
  | mountPoint => simp [git_win32_path_readlink_w, hvol]
  | other => exact absurd rfl h1

/-- Witness for `readlink_rejects_volume` at a concrete mount-point block
whose target is `\??\Volume{X}`. -/
theorem readlink_rejects_volume_witness :
    git_win32_path_readlink_w true (some ⟨ReparseTag.mountPoint,
      ['\\', '?', '?', '\\', 'V', 'o', 'l', 'u', 'm', 'e', '\x7b',
       'X', '\x7d']⟩) = ⟨-1, none, some WinErrno.EINVAL⟩ :=
  readlink_rejects_volume _ _ (by decide) (by decide)

/-- C5: over a directory with entries named `a b c d e` (here enumerated
out of order, as the OS may), listing with `start = "b"` and `end = "d"`
returns exactly the entries `b`, `c`, `d`, sorted lexicographically by
path. -/
theorem dirload_range_filter_example :
    git_win32_path_dirload_with_stat [] 0 false (some ['b']) (some ['d'])
      (fun _ => git_win32_path_readlink_w false none)
      [⟨['e'], 0, 0, false, false, false⟩, ⟨['c'], 0, 0, false, false, false⟩,
       ⟨['a'], 0, 0, false, false, false⟩, ⟨['d'], 0, 0, false, false, false⟩,
       ⟨['b'], 0, 0, false, false, false⟩] =
    .ok [⟨['b'], 0x8180, 0⟩, ⟨['c'], 0x8180, 0⟩, ⟨['d'], 0x8180, 0⟩] := rfl

/-- C10: the range bounds compare over only `min(bound length, entry path
length)` units — the entry `b`, a strict prefix of `start = "bb"`, is
included, and the entry `dz`, a strict extension of `end = "d"`, is
included, though both lie lexicographically outside `[start, end]`
(`"b" < "bb"`, `"dz" > "d"`). -/
theorem dirload_range_min_length_example :
    (git_win32_path_dirload_with_stat [] 0 false (some ['b', 'b']) none
      (fun _ => git_win32_path_readlink_w false none)
      [⟨['b'], 0, 0, false, false, false⟩] =
     .ok [⟨['b'], 0x8180, 0⟩]) ∧
    (git_win32_path_dirload_with_stat [] 0 false none (some ['d'])
      (fun _ => git_win32_path_readlink_w false none)
      [⟨['d', 'z'], 0, 0, false, false, false⟩] =
     .ok [⟨['d', 'z'], 0x8180, 0⟩]) ∧
    strcmpChars ['b'] ['b', 'b'] < 0 ∧ strcmpChars ['d', 'z'] ['d'] > 0 :=
  ⟨rfl, rfl, by decide, by decide⟩

/-- C3, counterexample: a listing whose only entry is reparse-tagged and
whose `git_win32_path_readlink_w` call fails (its return is negative)
does not abort — `git_win32_path_dirload_with_stat` returns success with
the entry present, carrying its attribute-derived directory metadata
instead of link metadata. -/
theorem dirload_readlink_failure_counterexample :
    (git_win32_path_readlink_w false none).ret < 0 ∧
    git_win32_path_dirload_with_stat [] 0 false none none
      (fun _ => git_win32_path_readlink_w false none)
      [⟨['x'], 0, 0, true, false, true⟩] =
      .ok [⟨['x', '/'], 0x4180, 0⟩] := ⟨by decide, rfl⟩

/-- C3, amended: when `git_win32_path_readlink_w` fails on a
reparse-tagged entry, `git_win32_path_dirload_with_stat` neither fails
nor skips the entry — the listing succeeds and the entry is returned
with its attribute-derived (directory, here) metadata left in place, the
link override simply not applied.  Stated for a one-entry enumeration
with no range bounds. -/
theorem dirload_readlink_failure_keeps_entry
    (name repoPath : List Char) (ro : Bool) (hi lo : Nat)
    (readlink : List Char → ReadlinkResult)
    (hname : git_path_is_dot_or_dotdotW name = false)
    (hfail : (readlink name).ret < 0)
    (hrepo : repoPath.length ≤ PATH__MAX_UNC_LEN) :
    git_win32_path_dirload_with_stat repoPath 0 false none none readlink
      [⟨name, hi, lo, true, ro, true⟩] =
      .ok [⟨(repoPath ++ name) ++ ['/'],
        S_IREAD ||| S_IFDIR ||| (if ro then 0 else S_IWRITE),
        (((hi <<< 32) ||| lo : Nat) : Int)⟩] := by
  have hnot : ¬ ((readlink name).ret ≥ 0) := by omega
  have hguard : ¬ (repoPath.length > PATH__MAX_UNC_LEN) := by omega
  have hname' : ¬ (name = ['.'] ∨ name = ['.', '.']) := by
    have h := hname
    simp [git_path_is_dot_or_dotdotW] at h
    exact not_or.mpr h
  have hm1 : (16768 : Nat) &&& 61440 = 16384 := by decide
  have hm2 : (16640 : Nat) &&& 61440 = 16384 := by decide
  cases ro <;>
    simp [git_win32_path_dirload_with_stat, dirload_loop, dirload_entry,
      dirload_finish, hname, hname', hnot, hguard, hm1, hm2, git_vector_sort,
      git_vector__insert_sorted, S_ISDIR, S_ISREG, S_ISLNK, S_IREAD,
      S_IFDIR, S_IWRITE, S_IFMT, git__utf16_to_8]

/-- Witness for `dirload_readlink_failure_keeps_entry` at a concrete
failing resolver. -/
theorem dirload_readlink_failure_keeps_entry_witness :
    git_win32_path_dirload_with_stat ['r', '/'] 0 false none none
      (fun _ => git_win32_path_readlink_w false none)
      [⟨['x'], 1, 2, true, true, true⟩] =
      .ok [⟨(['r', '/'] ++ ['x']) ++ ['/'],
        S_IREAD ||| S_IFDIR ||| (if true then 0 else S_IWRITE),
        (((1 <<< 32) ||| 2 : Nat) : Int)⟩] :=
  dirload_readlink_failure_keeps_entry ['x'] ['r', '/'] true 1 2 _
    (by decide) (by decide) (by decide)

theorem mem_insert_sorted {x y : git_path_with_stat}
    {l : List git_path_with_stat} (h : x ∈ git_vector__insert_sorted y l) :
    x = y ∨ x ∈ l := by
  induction l with
  | nil => simpa [git_vector__insert_sorted] using h
  | cons z zs ih =>
    unfold git_vector__insert_sorted at h
    split at h
    · rcases List.mem_cons.mp h with h1 | h1
      · right; exact List.mem_cons.mpr (Or.inl h1)
      · rcases ih h1 with h2 | h2
        · exact Or.inl h2
        · exact Or.inr (List.mem_cons.mpr (Or.inr h2))
    · rcases List.mem_cons.mp h with h1 | h1
      · exact Or.inl h1
      · exact Or.inr h1

theorem mem_git_vector_sort {x : git_path_with_stat} :
    ∀ {l acc : List git_path_with_stat},
      x ∈ l.foldl (fun acc y => git_vector__insert_sorted y acc) acc →
      x ∈ acc ∨ x ∈ l := by
  intro l
  induction l with
  | nil => intro acc h; exact Or.inl h
  | cons y ys ih =>
    intro acc h
    rcases ih h with h1 | h1
    · rcases mem_insert_sorted h1 with h2 | h2
      · exact Or.inr (List.mem_cons.mpr (Or.inl h2))
      · exact Or.inl h2
    · exact Or.inr (List.mem_cons.mpr (Or.inr h1))

theorem dirload_finish_shapes (wp : List Char) (m : Nat) (sz : Int)
    (ps : git_path_with_stat) (h : dirload_finish wp m sz = some ps) :
    (S_ISDIR ps.st_mode = true ∧ ps.path = wp ++ ['/']) ∨
    (S_ISDIR ps.st_mode = false ∧ ps.path = wp) := by
  unfold dirload_finish at h
  split at h
  next hsd =>
    left
    have hps := Option.some.inj h
    rw [← hps]
    exact ⟨hsd, rfl⟩
  next hsd =>
    split at h
    · cases h
    · right
      have hps := Option.some.inj h
      rw [← hps]
      exact ⟨by simpa using hsd, rfl⟩

set_option maxHeartbeats 1000000 in
theorem dirload_entry_shapes (repo_path : List Char)
    (ss es : Option (List Char)) (ic : Bool)
    (rl : List Char → ReadlinkResult) (f : WinFindData)
    (ps : git_path_with_stat)
    (h : dirload_entry repo_path ss es ic rl f = .ok (some ps)) :
    (S_ISDIR ps.st_mode = true ∧
      ps.path = (repo_path ++ git__utf16_to_8 f.cFileName) ++ ['/']) ∨
    (S_ISDIR ps.st_mode = false ∧
      ps.path = repo_path ++ git__utf16_to_8 f.cFileName) := by
  simp only [dirload_entry] at h
  repeat' split at h
  all_goals
    first
      | (exfalso; simp at h; done)
      | (exact dirload_finish_shapes _ _ _ _ (Except.ok.inj h))

theorem dirload_loop_mem (repo_path : List Char)
    (ss es : Option (List Char)) (ic : Bool)
    (rl : List Char → ReadlinkResult) :
    ∀ (entries : List WinFindData) (acc l : List git_path_with_stat),
      dirload_loop repo_path ss es ic rl entries acc = .ok l →
      ∀ ps ∈ l, ps ∈ acc ∨
        ∃ f ∈ entries, dirload_entry repo_path ss es ic rl f = .ok (some ps)
    := by
  intro entries
  induction entries with
  | nil =>
    intro acc l h ps hps
    left
    unfold dirload_loop at h
    have hal := Except.ok.inj h
    subst hal
    exact hps
  | cons f fs ih =>
    intro acc l h ps hps
    unfold dirload_loop at h
    split at h
    · simp at h
    next hnone =>
      rcases ih acc l h ps hps with h1 | ⟨g, hg, he⟩
      · exact Or.inl h1
      · exact Or.inr ⟨g, List.mem_cons.mpr (Or.inr hg), he⟩
    next ps' hsome =>
      rcases ih _ l h ps hps with h1 | ⟨g, hg, he⟩
      · rcases List.mem_append.mp h1 with h2 | h2
        · exact Or.inl h2
        · have : ps = ps' := by simpa using h2
          exact Or.inr ⟨f, List.mem_cons.mpr (Or.inl rfl), by rw [this]; exact hsome⟩
      · exact Or.inr ⟨g, List.mem_cons.mpr (Or.inr hg), he⟩

/-- C8: in every collection returned by
`git_win32_path_dirload_with_stat` (over enumeration records whose names
are, as the OS guarantees, non-empty and free of directory separators),
an entry whose resolved type bits are directory has a path ending in
exactly one trailing separator, and an entry of any other type has a
path ending in no trailing separator. -/
theorem dirload_directory_suffix (path : List Char) (prefix_len : Nat)
    (ic : Bool) (ss es : Option (List Char))
    (rl : List Char → ReadlinkResult) (entries : List WinFindData)
    (l : List git_path_with_stat)
    (hnames : ∀ f ∈ entries, f.cFileName ≠ [] ∧
      ∀ c ∈ f.cFileName, path__is_dirsep c = false)
    (hok : git_win32_path_dirload_with_stat path prefix_len ic ss es rl
      entries = .ok l) :
    ∀ ps ∈ l, (S_ISDIR ps.st_mode = true → endsWithOneSep ps.path) ∧
      (S_ISDIR ps.st_mode = false → endsWithNoSep ps.path) := by
  intro ps hps
  unfold git_win32_path_dirload_with_stat at hok
  split at hok
  · simp at hok
  · split at hok
    · simp at hok
    next l₀ hloop =>
      have hmem : ps ∈ l₀ := by
        have := Except.ok.inj hok
        rw [← this] at hps
        rcases @mem_git_vector_sort _ l₀ [] hps with h1 | h1
        · simp at h1
        · exact h1
      rcases dirload_loop_mem _ _ _ _ _ _ _ _ hloop ps hmem with h1 | ⟨f, hf, he⟩
      · simp at h1
      · obtain ⟨hne, hchars⟩ := hnames f hf
        have hlast : ∀ c,
            ((path.drop prefix_len) ++ git__utf16_to_8 f.cFileName).getLast?
              = some c → path__is_dirsep c = false := by
          intro c hc
          rw [git__utf16_to_8] at hc
          rw [List.getLast?_append_of_ne_nil _ hne] at hc
          exact hchars c (List.mem_of_mem_getLast? hc)
        rcases dirload_entry_shapes _ _ _ _ _ _ _ he with ⟨hd, hp⟩ | ⟨hd, hp⟩
        · constructor
          · intro _
            exact ⟨_, hp, hlast⟩
          · intro hcon; rw [hd] at hcon; cases hcon
        · constructor
          · intro hcon; rw [hd] at hcon; cases hcon
          · intro _
            intro c hc
            rw [hp] at hc
            exact hlast c hc

/-- Witness for `dirload_directory_suffix` on a two-entry listing (one
directory, one regular file): the directory's returned path ends in one
`/`, the file's in none. -/
theorem dirload_directory_suffix_witness :
    endsWithOneSep (['d', '/'] : List Char) ∧
      endsWithNoSep (['f'] : List Char) := by
  have h := dirload_directory_suffix [] 0 false none none
    (fun _ => git_win32_path_readlink_w false none)
    [⟨['d'], 0, 0, true, false, false⟩, ⟨['f'], 0, 0, false, false, false⟩]
    [⟨['d', '/'], 0x4180, 0⟩, ⟨['f'], 0x8180, 0⟩] (by decide) rfl
  exact ⟨(h ⟨['d', '/'], 0x4180, 0⟩ (List.mem_cons_self _ _)).1 (by decide),
    (h ⟨['f'], 0x8180, 0⟩
      (List.mem_cons_of_mem _ (List.mem_cons_self _ _))).2 (by decide)⟩

theorem git__isalpha_ne_backslash {a : Char} (h : git__isalpha a = true) :
    a ≠ '\\' := by
  intro hc; rw [hc] at h; simp [git__isalpha] at h

theorem skip_pfx_marker_abs (a d : Char) (rest : List Char)
    (ha : git__isalpha a = true) (hd : path__is_dirsep d = true) :
    path__skip_pfx (PATH__NT_NAMESPACE ++ a :: ':' :: d :: rest) = 7 := by
  have hd' : d = '/' ∨ d = '\\' := by
    simpa [path__is_dirsep, or_comm] using hd
  have habs : path__is_absolute (a :: ':' :: d :: rest) = true := by
    rcases hd' with h | h <;> simp [path__is_absolute, ha, h]
  have hU : ¬ ((a :: ':' :: d :: rest).take 4 = ['U', 'N', 'C', '\\']) := by
    intro hh
    have h2 := congrArg (fun l : List Char => l.get? 1) hh
    simp at h2
  show path__skip_pfx
    ('\\' :: '\\' :: '?' :: '\\' :: a :: ':' :: d :: rest) = 7
  unfold path__skip_pfx
  rw [if_pos (show path__is_nt_namespace
    ('\\' :: '\\' :: '?' :: '\\' :: a :: ':' :: d :: rest) = true from rfl)]
  rw [show ('\\' :: '\\' :: '?' :: '\\' :: a :: ':' :: d :: rest :
    List Char).drop 4 = a :: ':' :: d :: rest from rfl]
  rw [if_neg hU, if_pos habs]

theorem skip_pfx_marker_unc (w : List Char) :
    path__skip_pfx (PATH__NT_NAMESPACE ++ 'U' :: 'N' :: 'C' :: '\\' :: w)
      = 8 + path__skip_server w := by
  show path__skip_pfx
    ('\\' :: '\\' :: '?' :: '\\' :: 'U' :: 'N' :: 'C' :: '\\' :: w) = _
  unfold path__skip_pfx
  rw [if_pos (show path__is_nt_namespace
    ('\\' :: '\\' :: '?' :: '\\' :: 'U' :: 'N' :: 'C' :: '\\' :: w)
      = true from rfl)]
  rw [show ('\\' :: '\\' :: '?' :: '\\' :: 'U' :: 'N' :: 'C' :: '\\' :: w :
    List Char).drop 4 = 'U' :: 'N' :: 'C' :: '\\' :: w from rfl]
  rw [if_pos (show ('U' :: 'N' :: 'C' :: '\\' :: w : List Char).take 4
    = ['U', 'N', 'C', '\\'] from rfl)]
  rfl

theorem from_utf8_abs (cwd t : List Char)
    (h : path__is_absolute t = true) :
    git_win32_path_from_utf8 cwd t =
      some (git_win32_path_canonicalize (PATH__NT_NAMESPACE ++ t)) := by
  unfold git_win32_path_from_utf8
  rw [if_pos h]
  rfl

theorem from_utf8_unc (cwd t : List Char) (h1 : path__is_unc t = true)
    (h2 : path__is_nt_namespace t = false) :
    git_win32_path_from_utf8 cwd t =
      some (git_win32_path_canonicalize
        (PATH__NT_NAMESPACE ++ 'U' :: 'N' :: 'C' :: '\\' :: t.drop 2)) := by
  unfold git_win32_path_from_utf8
  rw [if_neg (by simp [unc_not_absolute h1]), if_neg (by simp [h2]),
    if_pos h1]
  rfl

theorem to_utf8_marker_not_unc (s : List Char)
    (hU : ¬ (s.take 4 = ['U', 'N', 'C', '\\'])) :
    git_win32_path_to_utf8 (PATH__NT_NAMESPACE ++ s) =
      git_path_mkposix s := by
  unfold git_win32_path_to_utf8
  rw [if_pos (show path__is_nt_namespace (PATH__NT_NAMESPACE ++ s)
    = true from rfl)]
  rw [show (PATH__NT_NAMESPACE ++ s).drop 4 = s from rfl]
  rw [if_neg hU]
  rfl

theorem to_utf8_marker_unc (w : List Char) :
    git_win32_path_to_utf8
      (PATH__NT_NAMESPACE ++ 'U' :: 'N' :: 'C' :: '\\' :: w) =
      git_path_mkposix ('\\' :: '\\' :: w) := by
  unfold git_win32_path_to_utf8
  rw [if_pos (show path__is_nt_namespace
    (PATH__NT_NAMESPACE ++ 'U' :: 'N' :: 'C' :: '\\' :: w) = true from rfl)]
  rw [show (PATH__NT_NAMESPACE ++ 'U' :: 'N' :: 'C' :: '\\' :: w).drop 4
    = 'U' :: 'N' :: 'C' :: '\\' :: w from rfl]
  rw [if_pos (show ('U' :: 'N' :: 'C' :: '\\' :: w : List Char).take 4
    = ['U', 'N', 'C', '\\'] from rfl)]
  rfl

theorem mkposix_append (x y : List Char) :
    git_path_mkposix (x ++ y) = git_path_mkposix x ++ git_path_mkposix y := by
  simp [git_path_mkposix]

theorem mkposix_sep {d : Char} (hd : path__is_dirsep d = true) :
    git_path_mkposix [d] = ['/'] := by
  have hd' : d = '/' ∨ d = '\\' := by
    simpa [path__is_dirsep, or_comm] using hd
  rcases hd' with h | h <;> simp [git_path_mkposix, h]

/-- C7, counterexample: the round trip is not the identity (up to
separator normalization) for every clean text path.  A plain relative
path comes back with the working directory spliced in front, and an
extended-namespace path comes back with its marker stripped. -/
theorem roundtrip_counterexample :
    ((git_win32_path_from_utf8 "C:\\base".toList "a".toList).map
        git_win32_path_to_utf8 ≠ some (git_path_mkposix "a".toList)) ∧
    ((git_win32_path_from_utf8 "C:\\base".toList "\\\\?\\C:\\x".toList).map
        git_win32_path_to_utf8 ≠
          some (git_path_mkposix "\\\\?\\C:\\x".toList)) := by
  decide

/-- C7, amended: for drive-absolute and UNC caller text with no `.`/`..`
segments and no redundant separators, converting to the native form and
back returns the same path spelled with portable separators
(`to_utf8 (from_utf8 t) = mkposix t`); relative and extended-namespace
inputs are excluded (the working directory is prepended, respectively
the namespace marker is stripped). -/
theorem roundtrip_abs_unc (cwd t : List Char)
    (h : AbsCleanText t ∨ UncCleanText t) :
    (git_win32_path_from_utf8 cwd t).map git_win32_path_to_utf8 =
      some (git_path_mkposix t) := by
  rcases h with ⟨habs, hclean⟩ | ⟨hunc, hnt, hsub⟩
  · obtain ⟨a, d, rest, rfl, ha, hd⟩ :
        ∃ a d rest, t = a :: ':' :: d :: rest ∧
          git__isalpha a = true ∧ path__is_dirsep d = true := by
      cases t with
      | nil => simp [path__is_absolute] at habs
      | cons a t1 =>
        cases t1 with
        | nil => simp [path__is_absolute] at habs
        | cons b t2 =>
          cases t2 with
          | nil => simp [path__is_absolute] at habs
          | cons c rest =>
            simp [path__is_absolute, and_assoc] at habs
            obtain ⟨ha, hb, hc⟩ := habs
            subst hb
            refine ⟨a, c, rest, rfl, ha, ?_⟩
            rcases hc with h | h <;> simp [path__is_dirsep, h]
    have hd' : d = '/' ∨ d = '\\' := by
      simpa [path__is_dirsep, or_comm] using hd
    have habs2 : path__is_absolute (a :: ':' :: d :: rest) = true := by
      rcases hd' with h | h <;> simp [path__is_absolute, ha, h]
    rw [from_utf8_abs cwd _ habs2, Option.map_some']
    have hX : PATH__NT_NAMESPACE ++ a :: ':' :: d :: rest
        = (PATH__NT_NAMESPACE ++ [a, ':', d]) ++ rest := by simp
    have hbase :
        path__skip_pfx ((PATH__NT_NAMESPACE ++ [a, ':', d]) ++ rest)
          = (PATH__NT_NAMESPACE ++ [a, ':', d]).length := by
      rw [← hX, skip_pfx_marker_abs a d rest ha hd]
      rfl
    have hclean' : rest = [] ∨ CleanPath rest := by
      have hres : (a :: ':' :: d :: rest).drop 3 = rest := rfl
      rwa [hres] at hclean
    rw [hX, canonicalize_pfx_clean _ _ hbase hclean']
    have hna : path__is_dirsep a = false := by
      simp [path__is_dirsep, git__isalpha_ne_slash ha,
        git__isalpha_ne_backslash ha]
    have hmap : (PATH__NT_NAMESPACE ++ [a, ':', d]).map posixToNt
        = PATH__NT_NAMESPACE ++ [a, ':', '\\'] := by
      have h1 : posixToNt a = a := posixToNt_of_not_dirsep hna
      have h3 : posixToNt d = '\\' := posixToNt_of_dirsep hd
      simp only [List.map_append, List.map_cons, List.map_nil, h1, h3]
      rfl
    rw [hmap]
    have hX2 : (PATH__NT_NAMESPACE ++ [a, ':', '\\']) ++ rest.map posixToNt
        = PATH__NT_NAMESPACE ++ ([a, ':', '\\'] ++ rest.map posixToNt) := by
      simp
    have hU2 : ¬ (([a, ':', '\\'] ++ rest.map posixToNt).take 4
        = ['U', 'N', 'C', '\\']) := by
      intro hh
      have h2 := congrArg (fun l : List Char => l.get? 1) hh
      simp at h2
    rw [hX2, to_utf8_marker_not_unc _ hU2]
    rw [mkposix_append, mkposix_map_posixToNt]
    have hsplit : git_path_mkposix (a :: ':' :: d :: rest)
        = git_path_mkposix [a, ':', d] ++ git_path_mkposix rest := by
      rw [← mkposix_append]
      rfl
    rw [hsplit]
    congr 1
    have hna' : a ≠ '\\' := git__isalpha_ne_backslash ha
    rcases hd' with h | h <;> simp [git_path_mkposix, hna', h]
  · obtain ⟨x, y, t2, rfl, hxy⟩ :
        ∃ x y t2, t = x :: y :: t2 ∧
          ((x = '\\' ∧ y = '\\') ∨ (x = '/' ∧ y = '/')) := by
      cases t with
      | nil => simp [path__is_unc] at hunc
      | cons x t1 =>
        cases t1 with
        | nil => simp [path__is_unc] at hunc
        | cons y t2 =>
          simp [path__is_unc] at hunc
          exact ⟨x, y, t2, rfl, hunc⟩
    have hdrop : (x :: y :: t2).drop 2 = t2 := rfl
    rw [from_utf8_unc cwd _ hunc hnt, Option.map_some', hdrop]
    rw [hdrop] at hsub
    have hmkxy : git_path_mkposix [x, y] = ['/', '/'] := by
      rcases hxy with ⟨hx, hy⟩ | ⟨hx, hy⟩ <;> subst hx <;> subst hy <;>
        simp [git_path_mkposix]
    have hmkt : git_path_mkposix (x :: y :: t2)
        = '/' :: '/' :: git_path_mkposix t2 := by
      have : git_path_mkposix ([x, y] ++ t2)
          = git_path_mkposix [x, y] ++ git_path_mkposix t2 := mkposix_append _ _
      simpa [hmkxy] using this
    rcases hsub with hall | ⟨server, sep, more, hdec, hserv, hsep, hmore⟩
    · have hX : PATH__NT_NAMESPACE ++ 'U' :: 'N' :: 'C' :: '\\' :: t2
          = (PATH__NT_NAMESPACE ++ 'U' :: 'N' :: 'C' :: '\\' :: t2) ++ [] := by
        simp
      have hbase : path__skip_pfx
          ((PATH__NT_NAMESPACE ++ 'U' :: 'N' :: 'C' :: '\\' :: t2) ++ [])
            = (PATH__NT_NAMESPACE ++ 'U' :: 'N' :: 'C' :: '\\' :: t2).length
          := by
        rw [List.append_nil, skip_pfx_marker_unc t2,
          path__skip_server_all hall]
        simp [PATH__NT_NAMESPACE]
        omega
      rw [hX, canonicalize_pfx_clean _ _ hbase (Or.inl rfl)]
      have hmap :
          (PATH__NT_NAMESPACE ++ 'U' :: 'N' :: 'C' :: '\\' :: t2).map posixToNt
            = PATH__NT_NAMESPACE ++ 'U' :: 'N' :: 'C' :: '\\' :: t2 := by
        have h2 : t2.map posixToNt = t2 := map_posixToNt_id hall
        simp [PATH__NT_NAMESPACE, posixToNt, h2]
      rw [hmap, List.map_nil, List.append_nil, to_utf8_marker_unc]
      rw [hmkt]
      have h2 : git_path_mkposix ('\\' :: '\\' :: t2)
          = git_path_mkposix ['\\', '\\'] ++ git_path_mkposix t2 :=
        mkposix_append ['\\', '\\'] t2
      simp [git_path_mkposix] at h2
      simp [git_path_mkposix, h2]
    · subst hdec
      have hX : PATH__NT_NAMESPACE ++ 'U' :: 'N' :: 'C' :: '\\' ::
            (server ++ sep :: more)
          = (PATH__NT_NAMESPACE ++ 'U' :: 'N' :: 'C' :: '\\' ::
              (server ++ [sep])) ++ more := by
        simp
      have hbase : path__skip_pfx
          ((PATH__NT_NAMESPACE ++ 'U' :: 'N' :: 'C' :: '\\' ::
            (server ++ [sep])) ++ more)
            = (PATH__NT_NAMESPACE ++ 'U' :: 'N' :: 'C' :: '\\' ::
              (server ++ [sep])).length := by
        rw [← hX, skip_pfx_marker_unc (server ++ sep :: more),
          path__skip_server_append more hserv hsep]
        simp [PATH__NT_NAMESPACE]
        omega
      rw [hX, canonicalize_pfx_clean _ _ hbase hmore]
      have hservmap : server.map posixToNt = server := map_posixToNt_id hserv
      have hmap : (PATH__NT_NAMESPACE ++ 'U' :: 'N' :: 'C' :: '\\' ::
            (server ++ [sep])).map posixToNt
          = PATH__NT_NAMESPACE ++ 'U' :: 'N' :: 'C' :: '\\' ::
            (server ++ ['\\']) := by
        have h3 : posixToNt sep = '\\' := posixToNt_of_dirsep hsep
        simp only [List.map_append, List.map_cons, List.map_nil, hservmap, h3]
        rfl
      rw [hmap]
      have hX2 : (PATH__NT_NAMESPACE ++ 'U' :: 'N' :: 'C' :: '\\' ::
            (server ++ ['\\'])) ++ more.map posixToNt
          = PATH__NT_NAMESPACE ++ 'U' :: 'N' :: 'C' :: '\\' ::
            ((server ++ ['\\']) ++ more.map posixToNt) := by
        simp
      rw [hX2, to_utf8_marker_unc, hmkt]
      have hLHS : git_path_mkposix
            ('\\' :: '\\' :: ((server ++ ['\\']) ++ more.map posixToNt))
          = '/' :: '/' :: (git_path_mkposix server ++
              '/' :: git_path_mkposix more) := by
        have e1 : ('\\' :: '\\' :: ((server ++ ['\\']) ++ more.map posixToNt)
            : List Char)
            = ['\\', '\\'] ++ server ++ ['\\'] ++ more.map posixToNt := by
          simp
        rw [e1, mkposix_append, mkposix_append, mkposix_append,
          mkposix_map_posixToNt]
        simp [git_path_mkposix]
      rw [hLHS]
      have hRHS : git_path_mkposix (server ++ sep :: more)
          = git_path_mkposix server ++ '/' :: git_path_mkposix more := by
        have e2 : (server ++ sep :: more : List Char)
            = server ++ [sep] ++ more := by simp
        rw [e2, mkposix_append, mkposix_append, mkposix_sep hsep]
        simp
      rw [hRHS]

/-- Witness for `roundtrip_abs_unc` at the drive-absolute input `C:/x`
and the UNC input `//srv/sh`. -/
theorem roundtrip_abs_unc_witness :
    ((git_win32_path_from_utf8 [] "C:/x".toList).map git_win32_path_to_utf8
      = some (git_path_mkposix "C:/x".toList)) ∧
    ((git_win32_path_from_utf8 [] "//srv/sh".toList).map
        git_win32_path_to_utf8 = some (git_path_mkposix "//srv/sh".toList))
    := by
  constructor
  · exact roundtrip_abs_unc [] _ (Or.inl ⟨by decide,
      Or.inr (CleanPath.single ['x'] ⟨by decide, by decide, by decide,
        by decide⟩)⟩)
  · exact roundtrip_abs_unc [] _ (Or.inr ⟨by decide, by decide,
      Or.inr ⟨['s', 'r', 'v'], '/', ['s', 'h'], rfl, by decide, by decide,
        Or.inr (CleanPath.single ['s', 'h'] ⟨by decide, by decide, by decide,
          by decide⟩)⟩⟩)

/-! ## Idempotence: output shape of the collapse loop -/

theorem posixToNt_ne_slash (c : Char) : posixToNt c ≠ '/' := by
  by_cases h : c = '/' <;> simp [posixToNt, h]

theorem map_posixToNt_id_of_no_slash {l : List Char}
    (h : ∀ c ∈ l, c ≠ '/') : l.map posixToNt = l := by
  induction l with
  | nil => rfl
  | cons a t ih =>
    simp only [List.map_cons]
    rw [show posixToNt a = a by simp [posixToNt, h a (by simp)],
      ih (fun c hc => h c (by simp [hc]))]

theorem NtSegs.nonnil {l : List Char} (h : NtSegs l) : l ≠ [] := by
  induction h with
  | single s hs => exact hs.1
  | snoc init s hs hi ih => simp

theorem NtSegs.no_slash {l : List Char} (h : NtSegs l) :
    ∀ c ∈ l, c ≠ '/' := by
  induction h with
  | single s hs =>
    intro c hc
    exact not_dirsep_ne_slash (hs.2.1 c hc)
  | snoc init s hs hi ih =>
    intro c hc
    rcases List.mem_append.mp hc with h1 | h1
    · exact ih c h1
    · rcases List.mem_cons.mp h1 with h2 | h2
      · subst h2; decide
      · exact not_dirsep_ne_slash (hs.2.1 c h2)

theorem CleanPath.append_seg {init s : List Char} (hi : CleanPath init)
    (hs : okSeg s) : CleanPath (init ++ '\\' :: s) := by
  induction hi with
  | single s₀ hs₀ =>
    exact CleanPath.cons s₀ '\\' s hs₀ (by simp [path__is_dirsep])
      (CleanPath.single s hs)
  | cons s₀ sep rest hs₀ hsep hr ih =>
    have : (s₀ ++ sep :: rest) ++ '\\' :: s
        = s₀ ++ sep :: (rest ++ '\\' :: s) := by simp
    rw [this]
    exact CleanPath.cons s₀ sep _ hs₀ hsep ih

theorem NtSegs.toCleanPath {l : List Char} (h : NtSegs l) : CleanPath l := by
  induction h with
  | single s hs => exact CleanPath.single s hs
  | snoc init s hs hi ih => exact ih.append_seg hs

theorem NtSegs.cons_seg {s rest : List Char} (hs : okSeg s)
    (hr : NtSegs rest) : NtSegs (s ++ '\\' :: rest) := by
  induction hr with
  | single s₁ hs₁ => exact NtSegs.snoc s s₁ hs₁ (NtSegs.single s hs)
  | snoc init s₁ hs₁ hi ih =>
    have : s ++ '\\' :: (init ++ '\\' :: s₁)
        = (s ++ '\\' :: init) ++ '\\' :: s₁ := by simp
    rw [this]
    exact NtSegs.snoc _ s₁ hs₁ ih

theorem NtSegs.left_view {l : List Char} (h : NtSegs l) :
    okSeg l ∨ ∃ s rest, okSeg s ∧ NtSegs rest ∧ l = s ++ '\\' :: rest := by
  induction h with
  | single s hs => exact Or.inl hs
  | snoc init s hs hi ih =>
    rcases ih with h1 | ⟨s₀, rest₀, hs₀, hr₀, heq⟩
    · exact Or.inr ⟨init, s, h1, NtSegs.single s hs, rfl⟩
    · right
      refine ⟨s₀, rest₀ ++ '\\' :: s, hs₀, NtSegs.snoc rest₀ s hs hr₀, ?_⟩
      rw [heq]
      simp

theorem map_posixToNt_ntSegs {l : List Char} (h : NtSegs l) :
    l.map posixToNt = l :=
  map_posixToNt_id_of_no_slash h.no_slash

theorem dropWhile_append_of_all {p : Char → Bool} {xs : List Char}
    (ys : List Char) (h : ∀ x ∈ xs, p x = true) :
    (xs ++ ys).dropWhile p = ys.dropWhile p := by
  induction xs with
  | nil => rfl
  | cons a t ih =>
    rw [List.cons_append, List.dropWhile_cons, if_pos (h a (by simp))]
    exact ih (fun x hx => h x (by simp [hx]))

theorem dropWhile_eq_nil_of_all {p : Char → Bool} {l : List Char}
    (h : ∀ x ∈ l, p x = true) : l.dropWhile p = [] := by
  have := @dropWhile_append_of_all p l [] h
  simpa using this

theorem dropWhile_cons_of_neg {p : Char → Bool} {a : Char} (l : List Char)
    (h : p a = false) : (a :: l).dropWhile p = a :: l := by
  rw [List.dropWhile_cons, if_neg (by simp [h])]

theorem backUp_single_bs {s : List Char} (hs : okSeg s) :
    backUp (s ++ ['\\']) = [] := by
  unfold backUp
  rw [List.reverse_append]
  show ((('\\' :: s.reverse).dropWhile (fun c => c = '\\')).dropWhile
    (fun c => c ≠ '\\')).reverse = []
  rw [List.dropWhile_cons, if_pos (by simp)]
  have h1 : s.reverse.dropWhile (fun c => c = '\\') = s.reverse := by
    cases hsr : s.reverse with
    | nil => rfl
    | cons c z =>
      refine dropWhile_cons_of_neg z ?_
      have hcs : c ∈ s := by
        have : c ∈ s.reverse := by rw [hsr]; simp
        simpa using this
      simp [not_dirsep_ne_backslash (hs.2.1 c hcs)]
  rw [h1]
  rw [dropWhile_eq_nil_of_all (fun x hx => by
    have hxs : x ∈ s := by simpa using hx
    simp [not_dirsep_ne_backslash (hs.2.1 x hxs)])]
  rfl

theorem backUp_snoc {init s : List Char} (hs : okSeg s) :
    backUp ((init ++ '\\' :: s) ++ ['\\']) = init ++ ['\\'] := by
  unfold backUp
  have e1 : ((init ++ '\\' :: s) ++ ['\\']).reverse
      = '\\' :: (s.reverse ++ '\\' :: init.reverse) := by
    simp
  rw [e1, List.dropWhile_cons, if_pos (by simp)]
  have h1 : (s.reverse ++ '\\' :: init.reverse).dropWhile
      (fun c => c = '\\') = s.reverse ++ '\\' :: init.reverse := by
    cases hsr : s.reverse with
    | nil => exact absurd (by simpa using congrArg List.reverse hsr) hs.1
    | cons c z =>
      rw [List.cons_append]
      refine dropWhile_cons_of_neg _ ?_
      have hcs : c ∈ s := by
        have : c ∈ s.reverse := by rw [hsr]; simp
        simpa using this
      simp [not_dirsep_ne_backslash (hs.2.1 c hcs)]
  rw [h1]
  rw [dropWhile_append_of_all _ (fun x hx => by
    have hxs : x ∈ s := by simpa using hx
    simp [not_dirsep_ne_backslash (hs.2.1 x hxs)])]
  rw [dropWhile_cons_of_neg _ (by simp)]
  simp

theorem take_nextSep_not_sep (rest : List Char) :
    ∀ c ∈ rest.take (nextSep rest), path__is_dirsep c = false := by
  induction rest with
  | nil => simp
  | cons a t ih =>
    cases hb : path__is_dirsep a with
    | true => simp [nextSep, hb]
    | false =>
      intro c hc
      rw [show nextSep (a :: t) = nextSep t + 1 by simp [nextSep, hb],
        List.take_succ_cons] at hc
      rcases List.mem_cons.mp hc with h1 | h1
      · subst h1; exact hb
      · exact ih c h1

theorem canonStep_lt (rest : List Char) (h : rest ≠ []) :
    ((rest.drop (nextSep rest)).tail.dropWhile
      (fun c => c = '\\')).length < rest.length := by
  have hdw := length_dropWhile_le (fun c => c = '\\')
    (rest.drop (nextSep rest)).tail
  have h4 : 1 ≤ rest.length := List.length_pos.mpr h
  have h1 : (rest.drop (nextSep rest)).length
      = rest.length - nextSep rest := List.length_drop _ _
  have h3 : (rest.drop (nextSep rest)).tail.length
      = (rest.drop (nextSep rest)).length - 1 := List.length_tail _
  omega

theorem canonSegs_good (fuel : Nat) :
    ∀ acc rest, rest.length ≤ fuel →
      (acc = [] ∨ ∃ s, NtSegs s ∧ acc = s ++ ['\\']) →
      (canonSegs fuel acc rest = [] ∨
       ∃ s, NtSegs s ∧ (canonSegs fuel acc rest = s ++ ['\\'] ∨
         canonSegs fuel acc rest = s)) := by
  induction fuel with
  | zero =>
    intro acc rest hf hacc
    have hr : rest = [] := List.eq_nil_of_length_eq_zero (by omega)
    subst hr
    rw [canonSegs_nil]
    rcases hacc with h | ⟨s, hsN, heq⟩
    · exact Or.inl h
    · exact Or.inr ⟨s, hsN, Or.inl heq⟩
  | succ f ih =>
    intro acc rest hf hacc
    by_cases hne : rest = []
    · subst hne
      rw [canonSegs_nil]
      rcases hacc with h | ⟨s, hsN, heq⟩
      · exact Or.inl h
      · exact Or.inr ⟨s, hsN, Or.inl heq⟩
    · rw [canonSegs_succ f acc rest hne]
      have hbound : ((rest.drop (nextSep rest)).tail.dropWhile
          (fun c => c = '\\')).length ≤ f := by
        have := canonStep_lt rest hne
        omega
      have hsegchars := take_nextSep_not_sep rest
      by_cases hdot : rest.take (nextSep rest) = ['.']
      · rw [if_pos hdot]
        exact ih _ _ hbound hacc
      · by_cases hdd : rest.take (nextSep rest) = ['.', '.']
        · rw [if_neg hdot, if_pos hdd]
          refine ih _ _ hbound ?_
          rcases hacc with h | ⟨s, hsN, heq⟩
          · left; rw [h]; rfl
          · rw [heq]
            cases hsN with
            | single s hs => exact Or.inl (backUp_single_bs hs)
            | snoc init s₁ hs₁ hi =>
              exact Or.inr ⟨init, hi, backUp_snoc hs₁⟩
        · rw [if_neg hdot, if_neg hdd]
          by_cases hseg : rest.take (nextSep rest) = []
          · have e : acc ++ rest.take (nextSep rest) ++
                (if rest.drop (nextSep rest) ≠ [] ∧
                  rest.take (nextSep rest) ≠ [] then ['\\'] else [])
                = acc := by
              rw [hseg]
              simp
            rw [e]
            exact ih _ _ hbound hacc
          · have hsegok : okSeg (rest.take (nextSep rest)) :=
              ⟨hseg, hsegchars, hdot, hdd⟩
            by_cases hd1 : rest.drop (nextSep rest) = []
            · have hr2 : (rest.drop (nextSep rest)).tail.dropWhile
                  (fun c => c = '\\') = [] := by rw [hd1]; rfl
              rw [hr2, canonSegs_nil]
              have hcond : ¬ (rest.drop (nextSep rest) ≠ [] ∧
                  rest.take (nextSep rest) ≠ []) := by simp [hd1]
              rw [if_neg hcond]
              rcases hacc with h | ⟨s, hsN, heq⟩
              · refine Or.inr ⟨rest.take (nextSep rest),
                  NtSegs.single _ hsegok, Or.inr ?_⟩
                rw [h]
                simp
              · refine Or.inr ⟨s ++ '\\' :: rest.take (nextSep rest),
                  NtSegs.snoc s _ hsegok hsN, Or.inr ?_⟩
                rw [heq]
                simp
            · have hcond : rest.drop (nextSep rest) ≠ [] ∧
                  rest.take (nextSep rest) ≠ [] := ⟨hd1, hseg⟩
              rw [if_pos hcond]
              refine ih _ _ hbound (Or.inr ?_)
              rcases hacc with h | ⟨s, hsN, heq⟩
              · refine ⟨rest.take (nextSep rest),
                  NtSegs.single _ hsegok, ?_⟩
                rw [h]
                simp
              · refine ⟨s ++ '\\' :: rest.take (nextSep rest),
                  NtSegs.snoc s _ hsegok hsN, ?_⟩
                rw [heq]
                simp

theorem strip_append_bs (s : List Char) :
    stripTrailingBackslash (s ++ ['\\']) = stripTrailingBackslash s := by
  unfold stripTrailingBackslash
  rw [List.reverse_append]
  show ((('\\' :: s.reverse)).dropWhile (fun c => c = '\\')).reverse = _
  rw [List.dropWhile_cons, if_pos (by simp)]

theorem strip_canonSegs_good (rest : List Char) :
    stripTrailingBackslash (canonSegs rest.length [] rest) = [] ∨
    NtSegs (stripTrailingBackslash (canonSegs rest.length [] rest)) := by
  rcases canonSegs_good rest.length [] rest le_rfl (Or.inl rfl) with
    h | ⟨s, hsN, h | h⟩
  · left; rw [h]; rfl
  · right
    rw [h, strip_append_bs, stripTrailingBackslash_clean hsN.toCleanPath]
    exact hsN
  · right
    rw [h, stripTrailingBackslash_clean hsN.toCleanPath]
    exact hsN

theorem canonSegs_ntSegs {S : List Char} (h : NtSegs S) (fuel : Nat)
    (hf : S.length ≤ fuel) : canonSegs fuel [] S = S := by
  rw [canonSegs_clean h.toCleanPath fuel hf [], List.nil_append,
    map_posixToNt_ntSegs h]

/-- A buffer already in canonical shape — no `/` anywhere and a clean
backslash-segment remainder past its root boundary — is a fixed point of
the canonicalizer. -/
theorem canonicalize_fixed {X : List Char}
    (hslash : ∀ c ∈ X, c ≠ '/')
    (hsuf : X.drop (path__skip_pfx X) = [] ∨
      NtSegs (X.drop (path__skip_pfx X))) :
    git_win32_path_canonicalize X = X := by
  unfold git_win32_path_canonicalize
  have htake : (X.take (path__skip_pfx X)).map posixToNt
      = X.take (path__skip_pfx X) :=
    map_posixToNt_id_of_no_slash
      (fun c hc => hslash c (List.mem_of_mem_take hc))
  rw [htake]
  rcases hsuf with h | h
  · rw [h]
    show X.take _ ++ stripTrailingBackslash (canonSegs 0 [] []) = X
    rw [canonSegs_nil]
    show X.take _ ++ ([] : List Char) = X
    rw [List.append_nil]
    conv_rhs => rw [← List.take_append_drop (path__skip_pfx X) X]
    rw [h, List.append_nil]
  · rw [canonSegs_ntSegs h _ le_rfl,
      stripTrailingBackslash_clean h.toCleanPath]
    exact List.take_append_drop _ X

theorem isalpha_not_dirsep {a : Char} (h : git__isalpha a = true) :
    path__is_dirsep a = false := by
  simp [path__is_dirsep, git__isalpha_ne_slash h, git__isalpha_ne_backslash h]

theorem not_nt_of_head {a : Char} (l : List Char)
    (h : path__is_dirsep a = false) :
    path__is_nt_namespace (a :: l) = false := by
  cases l with
  | nil => rfl
  | cons b l2 =>
    cases l2 with
    | nil => rfl
    | cons c l3 =>
      cases l3 with
      | nil => rfl
      | cons d l4 =>
        simp [path__is_nt_namespace, not_dirsep_ne_backslash h,
          not_dirsep_ne_slash h]

theorem not_unc_of_head {a : Char} (l : List Char)
    (h : path__is_dirsep a = false) :
    path__is_unc (a :: l) = false := by
  cases l with
  | nil => rfl
  | cons b l2 =>
    simp [path__is_unc, not_dirsep_ne_backslash h, not_dirsep_ne_slash h]

theorem not_abs_of_head_bs (l : List Char) :
    path__is_absolute ('\\' :: l) = false := by
  cases l with
  | nil => rfl
  | cons b l2 =>
    cases l2 with
    | nil => rfl
    | cons c l3 => simp [path__is_absolute, git__isalpha]

theorem NtSegs.head_struct {S : List Char} (h : NtSegs S) :
    ∃ a t, S = a :: t ∧ path__is_dirsep a = false := by
  cases hS : S with
  | nil => exact absurd hS h.nonnil
  | cons a t =>
    refine ⟨a, t, rfl, ?_⟩
    exact h.toCleanPath.head_not_sep a (by rw [hS]; rfl)

theorem drop_seg_bs (s rest : List Char) :
    (s ++ '\\' :: rest).drop (s.length + 1) = rest := by
  have e : s ++ '\\' :: rest = (s ++ ['\\']) ++ rest := by simp
  have hlen : (s ++ ['\\']).length = s.length + 1 := by simp
  rw [e, ← hlen, List.drop_left]

theorem NtSegs.server_cut {S : List Char} (h : NtSegs S) :
    S.drop (path__skip_server S) = [] ∨
      NtSegs (S.drop (path__skip_server S)) := by
  rcases h.left_view with hok | ⟨s, rest, hs, hrest, heq⟩
  · left
    rw [path__skip_server_all hok.2.1, List.drop_length]
  · right
    subst heq
    rw [path__skip_server_append rest hs.2.1 (by simp [path__is_dirsep]),
      drop_seg_bs]
    exact hrest

theorem NtSegs.abs_cut {S : List Char} (h : NtSegs S)
    (habs : path__is_absolute S = true) : NtSegs (S.drop 3) := by
  obtain ⟨a, b, c, S₃, hS, ha, hb, hc⟩ :
      ∃ a b c S₃, S = a :: b :: c :: S₃ ∧ git__isalpha a = true ∧
        b = ':' ∧ c = '\\' := by
    cases S with
    | nil => simp [path__is_absolute] at habs
    | cons a t1 =>
      cases t1 with
      | nil => simp [path__is_absolute] at habs
      | cons b t2 =>
        cases t2 with
        | nil => simp [path__is_absolute] at habs
        | cons c S₃ =>
          simp [path__is_absolute, and_assoc] at habs
          obtain ⟨ha, hb, hc⟩ := habs
          refine ⟨a, b, c, S₃, rfl, ha, hb, ?_⟩
          rcases hc with h1 | h1
          · exact h1
          · exact absurd h1 (by
              have := h.no_slash c (by simp)
              simpa using this)
  subst hb; subst hc
  rcases h.left_view with hok | ⟨s, rest, hs, hrest, heq⟩
  · exfalso
    have hmem : '\\' ∈ S := by rw [hS]; simp
    have := hok.2.1 '\\' hmem
    simp [path__is_dirsep] at this
  · have hnS : nextSep S = s.length := by
      rw [heq]
      exact nextSep_append rest hs.2.1 (by simp [path__is_dirsep])
    have hnS2 : nextSep S = 2 := by
      rw [hS]
      simp [nextSep, isalpha_not_dirsep ha,
        show path__is_dirsep ':' = false from rfl,
        show path__is_dirsep '\\' = true from rfl]
    have hlen2 : s.length = 2 := by omega
    have heq2 : s ++ '\\' :: rest = [a, ':'] ++ '\\' :: S₃ := by
      rw [← heq, hS]
      rfl
    have hinj := List.append_inj heq2 (by simp [hlen2])
    have hrest3 : rest = S₃ := by
      have := hinj.2
      simpa using this
    have hdropS : S.drop 3 = S₃ := by rw [hS]; rfl
    rw [hdropS, ← hrest3]
    exact hrest

theorem NtSegs.unc_cut {S : List Char} (h : NtSegs S)
    (hU : S.take 4 = ['U', 'N', 'C', '\\']) : NtSegs (S.drop 4) := by
  have hS : S = ['U', 'N', 'C'] ++ '\\' :: S.drop 4 := by
    conv_lhs => rw [← List.take_append_drop 4 S]
    rw [hU]
    rfl
  rcases h.left_view with hok | ⟨s, rest, hs, hrest, heq⟩
  · exfalso
    have hmem : '\\' ∈ S := by rw [hS]; simp
    have := hok.2.1 '\\' hmem
    simp [path__is_dirsep] at this
  · have hnS : nextSep S = s.length := by
      rw [heq]
      exact nextSep_append rest hs.2.1 (by simp [path__is_dirsep])
    have hnS2 : nextSep S = 3 := by
      rw [hS]
      simp [nextSep, show path__is_dirsep 'U' = false from rfl,
        show path__is_dirsep 'N' = false from rfl,
        show path__is_dirsep 'C' = false from rfl,
        show path__is_dirsep '\\' = true from rfl]
    have hlen3 : s.length = 3 := by omega
    have heq2 : s ++ '\\' :: rest = ['U', 'N', 'C'] ++ '\\' :: S.drop 4 := by
      rw [← heq, ← hS]
    have hinj := List.append_inj heq2 (by simp [hlen3])
    have hrest4 : rest = S.drop 4 := by
      have := hinj.2
      simpa using this
    rw [← hrest4]
    exact hrest

theorem marker_suffix_good (S : List Char) (hS : S = [] ∨ NtSegs S) :
    (PATH__NT_NAMESPACE ++ S).drop
        (path__skip_pfx (PATH__NT_NAMESPACE ++ S)) = [] ∨
      NtSegs ((PATH__NT_NAMESPACE ++ S).drop
        (path__skip_pfx (PATH__NT_NAMESPACE ++ S))) := by
  have hnt : path__is_nt_namespace (PATH__NT_NAMESPACE ++ S) = true := rfl
  have hdrop4 : (PATH__NT_NAMESPACE ++ S).drop 4 = S := rfl
  unfold path__skip_pfx
  rw [if_pos hnt, hdrop4]
  by_cases hU : S.take 4 = ['U', 'N', 'C', '\\']
  · rw [if_pos hU]
    have hSN : NtSegs S := by
      rcases hS with h | h
      · rw [h] at hU; simp at hU
      · exact h
    have hcut := hSN.unc_cut hU
    have e : (PATH__NT_NAMESPACE ++ S).drop
          (8 + path__skip_server (S.drop 4))
        = (S.drop 4).drop (path__skip_server (S.drop 4)) := by
      rw [show 8 + path__skip_server (S.drop 4)
          = PATH__NT_NAMESPACE.length + (4 + path__skip_server (S.drop 4))
          from by simp [PATH__NT_NAMESPACE]; omega]
      rw [List.drop_append]
      rw [List.drop_drop]
    rw [e]
    exact hcut.server_cut
  · rw [if_neg hU]
    by_cases habs : path__is_absolute S = true
    · rw [if_pos habs]
      have hSN : NtSegs S := by
        rcases hS with h | h
        · rw [h] at habs; simp [path__is_absolute] at habs
        · exact h
      have e : (PATH__NT_NAMESPACE ++ S).drop 7 = S.drop 3 := by
        rw [show (7 : Nat) = PATH__NT_NAMESPACE.length + 3
          from by simp [PATH__NT_NAMESPACE]]
        rw [List.drop_append]
      rw [show (4 + 3 : Nat) = 7 from rfl, e]
      exact Or.inr (hSN.abs_cut habs)
    · rw [if_neg habs, hdrop4]
      exact hS

theorem skip_server_split (l : List Char) :
    (∀ c ∈ l, path__is_dirsep c = false) ∨
    ∃ w d r, l = w ++ d :: r ∧ (∀ c ∈ w, path__is_dirsep c = false) ∧
      path__is_dirsep d = true := by
  induction l with
  | nil => left; simp
  | cons a t ih =>
    by_cases ha : path__is_dirsep a = true
    · right; exact ⟨[], a, t, rfl, by simp, ha⟩
    · rcases ih with h | ⟨w, d, r, heq, hw, hd⟩
      · left
        intro c hc
        rcases List.mem_cons.mp hc with h1 | h1
        · subst h1; simpa using ha
        · exact h c h1
      · right
        refine ⟨a :: w, d, r, by rw [heq]; rfl, ?_, hd⟩
        intro c hc
        rcases List.mem_cons.mp hc with h1 | h1
        · subst h1; simpa using ha
        · exact hw c h1

theorem drop_seg_gen (s : List Char) (d : Char) (rest : List Char) :
    (s ++ d :: rest).drop (s.length + 1) = rest := by
  have e : s ++ d :: rest = (s ++ [d]) ++ rest := by simp
  have hlen : (s ++ [d]).length = s.length + 1 := by simp
  rw [e, ← hlen, List.drop_left]

theorem take_seg_gen (s : List Char) (d : Char) (rest : List Char) :
    (s ++ d :: rest).take (s.length + 1) = s ++ [d] := by
  have e : s ++ d :: rest = (s ++ [d]) ++ rest := by simp
  have hlen : (s ++ [d]).length = s.length + 1 := by simp
  rw [e, ← hlen, List.take_left]

theorem not_nt_two_bs (u : List Char)
    (h : ∀ x, u ≠ '?' :: '\\' :: x) :
    path__is_nt_namespace ('\\' :: '\\' :: u) = false := by
  cases u with
  | nil => rfl
  | cons c u1 =>
    cases u1 with
    | nil => rfl
    | cons c' u2 =>
      by_cases h1 : c = '?'
      · by_cases h2 : c' = '\\'
        · exact absurd (by rw [h1, h2]) (h u2)
        · subst h1
          simp [path__is_nt_namespace, h2]
      · simp [path__is_nt_namespace, h1]

theorem nt_take_map {p : List Char} (h : path__is_nt_namespace p = true)
    (j : Nat) :
    (p.take (4 + j)).map posixToNt
      = PATH__NT_NAMESPACE ++ ((p.drop 4).take j).map posixToNt := by
  obtain ⟨a, b, c, d, t, hp, hcase⟩ :
      ∃ a b c d t, p = a :: b :: c :: d :: t ∧
        ((a = '\\' ∧ b = '\\' ∧ c = '?' ∧ d = '\\') ∨
         (a = '/' ∧ b = '/' ∧ c = '?' ∧ d = '/')) := by
    cases p with
    | nil => simp [path__is_nt_namespace] at h
    | cons a t1 =>
      cases t1 with
      | nil => simp [path__is_nt_namespace] at h
      | cons b t2 =>
        cases t2 with
        | nil => simp [path__is_nt_namespace] at h
        | cons c t3 =>
          cases t3 with
          | nil => simp [path__is_nt_namespace] at h
          | cons d t =>
            refine ⟨a, b, c, d, t, rfl, ?_⟩
            simpa [path__is_nt_namespace, and_assoc] using h
  subst hp
  have htake : (a :: b :: c :: d :: t).take (4 + j)
      = a :: b :: c :: d :: t.take j := by
    rw [show 4 + j = j + 1 + 1 + 1 + 1 from by omega]
    simp [List.take_succ_cons]
  rw [htake, show (a :: b :: c :: d :: t).drop 4 = t from rfl]
  rcases hcase with ⟨h1, h2, h3, h4⟩ | ⟨h1, h2, h3, h4⟩ <;>
    subst h1 <;> subst h2 <;> subst h3 <;> subst h4 <;> rfl

theorem abs_shape {p : List Char} (h : path__is_absolute p = true) :
    ∃ x z t, p = x :: ':' :: z :: t ∧ git__isalpha x = true ∧
      path__is_dirsep z = true := by
  cases p with
  | nil => simp [path__is_absolute] at h
  | cons x t1 =>
    cases t1 with
    | nil => simp [path__is_absolute] at h
    | cons y t2 =>
      cases t2 with
      | nil => simp [path__is_absolute] at h
      | cons z t =>
        simp only [path__is_absolute, Bool.and_eq_true, Bool.or_eq_true,
          decide_eq_true_eq] at h
        obtain ⟨⟨hx, hy⟩, hz⟩ := h
        subst hy
        refine ⟨x, z, t, rfl, hx, ?_⟩
        rcases hz with h1 | h1 <;> simp [path__is_dirsep, h1]

theorem unc_shape {p : List Char} (h : path__is_unc p = true) :
    ∃ d t, p = d :: d :: t ∧ path__is_dirsep d = true := by
  cases p with
  | nil => simp [path__is_unc] at h
  | cons a t1 =>
    cases t1 with
    | nil => simp [path__is_unc] at h
    | cons b t =>
      simp only [path__is_unc, Bool.or_eq_true, Bool.and_eq_true,
        decide_eq_true_eq] at h
      rcases h with ⟨h1, h2⟩ | ⟨h1, h2⟩ <;> subst h1 <;> subst h2
      · exact ⟨'\\', t, rfl, rfl⟩
      · exact ⟨'/', t, rfl, rfl⟩

theorem canonicalize_no_slash (p : List Char) :
    ∀ c ∈ git_win32_path_canonicalize p, c ≠ '/' := by
  intro c hc
  unfold git_win32_path_canonicalize at hc
  rcases List.mem_append.mp hc with h | h
  · obtain ⟨x, hx, hmap⟩ := List.mem_map.mp h
    rw [← hmap]
    exact posixToNt_ne_slash x
  · rcases strip_canonSegs_good (p.drop (path__skip_pfx p)) with hg | hg
    · rw [hg] at h; simp at h
    · exact hg.no_slash c h

theorem good_suffix_abs (x : Char) (hx : git__isalpha x = true)
    (T : List Char) (hT : T = [] ∨ NtSegs T) :
    (x :: ':' :: '\\' :: T).drop (path__skip_pfx (x :: ':' :: '\\' :: T)) = [] ∨
      NtSegs ((x :: ':' :: '\\' :: T).drop
        (path__skip_pfx (x :: ':' :: '\\' :: T))) := by
  have hnt : path__is_nt_namespace (x :: ':' :: '\\' :: T) = false :=
    not_nt_of_head _ (isalpha_not_dirsep hx)
  have habs : path__is_absolute (x :: ':' :: '\\' :: T) = true := by
    simp [path__is_absolute, hx]
  have hskip : path__skip_pfx (x :: ':' :: '\\' :: T) = 3 := by
    unfold path__skip_pfx
    rw [if_neg (by simp [hnt]), if_pos habs]
  rw [hskip]
  exact hT

theorem good_suffix_nt_abs (x : Char) (hx : git__isalpha x = true)
    (T : List Char) (hT : T = [] ∨ NtSegs T) :
    (PATH__NT_NAMESPACE ++ x :: ':' :: '\\' :: T).drop
        (path__skip_pfx (PATH__NT_NAMESPACE ++ x :: ':' :: '\\' :: T)) = [] ∨
      NtSegs ((PATH__NT_NAMESPACE ++ x :: ':' :: '\\' :: T).drop
        (path__skip_pfx (PATH__NT_NAMESPACE ++ x :: ':' :: '\\' :: T))) := by
  have hnt : path__is_nt_namespace (PATH__NT_NAMESPACE ++ x :: ':' :: '\\' :: T)
      = true := rfl
  have hU : ¬(((PATH__NT_NAMESPACE ++ x :: ':' :: '\\' :: T).drop 4).take 4
      = ['U', 'N', 'C', '\\']) := by
    intro h
    have h2 : x :: ':' :: '\\' :: T.take 1 = ['U', 'N', 'C', '\\'] := h
    injection h2 with h3 h4
    injection h4 with h5 h6
    exact absurd h5 (by decide)
  have habs : path__is_absolute
      ((PATH__NT_NAMESPACE ++ x :: ':' :: '\\' :: T).drop 4) = true := by
    show path__is_absolute (x :: ':' :: '\\' :: T) = true
    simp [path__is_absolute, hx]
  have hskip : path__skip_pfx (PATH__NT_NAMESPACE ++ x :: ':' :: '\\' :: T)
      = 4 + 3 := by
    unfold path__skip_pfx
    rw [if_pos hnt, if_neg hU, if_pos habs]
  rw [hskip]
  exact hT

theorem good_suffix_unc_all (w : List Char)
    (hw : ∀ c ∈ w, path__is_dirsep c = false) :
    ('\\' :: '\\' :: w).drop (path__skip_pfx ('\\' :: '\\' :: w)) = [] ∨
      NtSegs (('\\' :: '\\' :: w).drop (path__skip_pfx ('\\' :: '\\' :: w))) := by
  have hnt : path__is_nt_namespace ('\\' :: '\\' :: w) = false := by
    apply not_nt_two_bs
    intro x hx
    have hbad : path__is_dirsep '\\' = false := hw '\\' (by rw [hx]; simp)
    simp [path__is_dirsep] at hbad
  have habs : path__is_absolute ('\\' :: '\\' :: w) = false :=
    not_abs_of_head_bs _
  have hunc : path__is_unc ('\\' :: '\\' :: w) = true := rfl
  have hskip : path__skip_pfx ('\\' :: '\\' :: w)
      = 2 + path__skip_server w := by
    unfold path__skip_pfx
    rw [if_neg (by simp [hnt]), if_neg (by simp [habs]), if_pos hunc]
    rfl
  rw [hskip, path__skip_server_all hw]
  left
  rw [show ('\\' :: '\\' :: w) = ['\\', '\\'] ++ w from rfl,
    show 2 + w.length = (['\\', '\\'] : List Char).length + w.length from rfl,
    List.drop_append, List.drop_length]

theorem good_suffix_unc (w T : List Char)
    (hw : ∀ c ∈ w, path__is_dirsep c = false) (hne : w ≠ ['?'])
    (hT : T = [] ∨ NtSegs T) :
    ('\\' :: '\\' :: (w ++ '\\' :: T)).drop
        (path__skip_pfx ('\\' :: '\\' :: (w ++ '\\' :: T))) = [] ∨
      NtSegs (('\\' :: '\\' :: (w ++ '\\' :: T)).drop
        (path__skip_pfx ('\\' :: '\\' :: (w ++ '\\' :: T)))) := by
  have hnomark : ∀ x, w ++ '\\' :: T ≠ '?' :: '\\' :: x := by
    intro x hx
    cases w with
    | nil => simp at hx
    | cons c w' =>
      cases w' with
      | nil =>
        injection hx with h1 h2
        exact hne (by rw [h1])
      | cons c' w'' =>
        injection hx with h1 h2
        injection h2 with h3 h4
        have hbad := hw c' (by simp)
        rw [h3] at hbad
        simp [path__is_dirsep] at hbad
  have hnt : path__is_nt_namespace ('\\' :: '\\' :: (w ++ '\\' :: T)) = false :=
    not_nt_two_bs _ hnomark
  have habs : path__is_absolute ('\\' :: '\\' :: (w ++ '\\' :: T)) = false :=
    not_abs_of_head_bs _
  have hunc : path__is_unc ('\\' :: '\\' :: (w ++ '\\' :: T)) = true := rfl
  have hskip : path__skip_pfx ('\\' :: '\\' :: (w ++ '\\' :: T))
      = 2 + (w.length + 1) := by
    unfold path__skip_pfx
    rw [if_neg (by simp [hnt]), if_neg (by simp [habs]), if_pos hunc]
    rw [show ('\\' :: '\\' :: (w ++ '\\' :: T)).drop 2 = w ++ '\\' :: T from rfl,
      path__skip_server_append T hw (by decide)]
  rw [hskip,
    show ('\\' :: '\\' :: (w ++ '\\' :: T)) = ['\\', '\\'] ++ (w ++ '\\' :: T)
      from rfl,
    show 2 + (w.length + 1)
        = (['\\', '\\'] : List Char).length + (w.length + 1) from rfl,
    List.drop_append, drop_seg_bs]
  exact hT

theorem good_suffix_nt_unc_all (sv : List Char)
    (hw : ∀ c ∈ sv, path__is_dirsep c = false) :
    (PATH__NT_NAMESPACE ++ ['U', 'N', 'C', '\\'] ++ sv).drop
        (path__skip_pfx (PATH__NT_NAMESPACE ++ ['U', 'N', 'C', '\\'] ++ sv))
        = [] ∨
      NtSegs ((PATH__NT_NAMESPACE ++ ['U', 'N', 'C', '\\'] ++ sv).drop
        (path__skip_pfx (PATH__NT_NAMESPACE ++ ['U', 'N', 'C', '\\'] ++ sv))) := by
  have hnt : path__is_nt_namespace
      (PATH__NT_NAMESPACE ++ ['U', 'N', 'C', '\\'] ++ sv) = true := rfl
  have hU : ((PATH__NT_NAMESPACE ++ ['U', 'N', 'C', '\\'] ++ sv).drop 4).take 4
      = ['U', 'N', 'C', '\\'] := rfl
  have hskip : path__skip_pfx (PATH__NT_NAMESPACE ++ ['U', 'N', 'C', '\\'] ++ sv)
      = 8 + sv.length := by
    unfold path__skip_pfx
    rw [if_pos hnt, if_pos hU]
    rw [show ((PATH__NT_NAMESPACE ++ ['U', 'N', 'C', '\\'] ++ sv).drop 4).drop 4
        = sv from rfl, path__skip_server_all hw]
  rw [hskip]
  left
  rw [show (8 : Nat) + sv.length
      = (PATH__NT_NAMESPACE ++ ['U', 'N', 'C', '\\']).length + sv.length from rfl,
    List.drop_append, List.drop_length]

theorem good_suffix_nt_unc (w T : List Char)
    (hw : ∀ c ∈ w, path__is_dirsep c = false)
    (hT : T = [] ∨ NtSegs T) :
    (PATH__NT_NAMESPACE ++ ['U', 'N', 'C', '\\'] ++ (w ++ '\\' :: T)).drop
        (path__skip_pfx
          (PATH__NT_NAMESPACE ++ ['U', 'N', 'C', '\\'] ++ (w ++ '\\' :: T)))
        = [] ∨
      NtSegs ((PATH__NT_NAMESPACE ++ ['U', 'N', 'C', '\\'] ++ (w ++ '\\' :: T)).drop
        (path__skip_pfx
          (PATH__NT_NAMESPACE ++ ['U', 'N', 'C', '\\'] ++ (w ++ '\\' :: T)))) := by
  have hnt : path__is_nt_namespace
      (PATH__NT_NAMESPACE ++ ['U', 'N', 'C', '\\'] ++ (w ++ '\\' :: T))
      = true := rfl
  have hU : ((PATH__NT_NAMESPACE ++ ['U', 'N', 'C', '\\'] ++
        (w ++ '\\' :: T)).drop 4).take 4 = ['U', 'N', 'C', '\\'] := rfl
  have hskip : path__skip_pfx
      (PATH__NT_NAMESPACE ++ ['U', 'N', 'C', '\\'] ++ (w ++ '\\' :: T))
      = 8 + (w.length + 1) := by
    unfold path__skip_pfx
    rw [if_pos hnt, if_pos hU]
    rw [show ((PATH__NT_NAMESPACE ++ ['U', 'N', 'C', '\\'] ++
          (w ++ '\\' :: T)).drop 4).drop 4 = w ++ '\\' :: T from rfl,
      path__skip_server_append T hw (by decide)]
  rw [hskip,
    show (8 : Nat) + (w.length + 1)
        = (PATH__NT_NAMESPACE ++ ['U', 'N', 'C', '\\']).length + (w.length + 1)
      from rfl,
    List.drop_append, drop_seg_bs]
  exact hT

theorem canonicalize_good (p : List Char) :
    (git_win32_path_canonicalize p).drop
        (path__skip_pfx (git_win32_path_canonicalize p)) = [] ∨
      NtSegs ((git_win32_path_canonicalize p).drop
        (path__skip_pfx (git_win32_path_canonicalize p))) := by
  by_cases hnt : path__is_nt_namespace p = true
  · by_cases hU : (p.drop 4).take 4 = ['U', 'N', 'C', '\\']
    · have hb : path__skip_pfx p = 8 + path__skip_server ((p.drop 4).drop 4) := by
        unfold path__skip_pfx
        rw [if_pos hnt, if_pos hU]
      rcases skip_server_split ((p.drop 4).drop 4) with
        hall | ⟨w, d₂, r₀, hsv, hw, hd₂⟩
      · have hk : path__skip_server ((p.drop 4).drop 4)
            = ((p.drop 4).drop 4).length := path__skip_server_all hall
        have htake : (p.take (path__skip_pfx p)).map posixToNt
            = PATH__NT_NAMESPACE ++ ['U', 'N', 'C', '\\'] ++ (p.drop 4).drop 4 := by
          rw [hb, hk, show 8 + ((p.drop 4).drop 4).length
              = 4 + (4 + ((p.drop 4).drop 4).length) from by omega,
            nt_take_map hnt, List.take_add, List.map_append, hU,
            List.take_length, map_posixToNt_id hall]
          rfl
        have hdropB : p.drop (path__skip_pfx p) = [] := by
          rw [hb, hk, show 8 + ((p.drop 4).drop 4).length
              = 4 + (4 + ((p.drop 4).drop 4).length) from by omega,
            show p.drop (4 + (4 + ((p.drop 4).drop 4).length))
              = ((p.drop 4).drop 4).drop ((p.drop 4).drop 4).length from by
                rw [List.drop_drop, List.drop_drop]
                congr 1
                omega,
            List.drop_length]
        have hR : git_win32_path_canonicalize p
            = PATH__NT_NAMESPACE ++ ['U', 'N', 'C', '\\'] ++ (p.drop 4).drop 4 := by
          unfold git_win32_path_canonicalize
          rw [htake, hdropB]
          show _ ++ stripTrailingBackslash (canonSegs 0 [] []) = _
          rw [canonSegs_nil]
          show _ ++ ([] : List Char) = _
          rw [List.append_nil]
        rw [hR]
        exact good_suffix_nt_unc_all _ hall
      · have hk : path__skip_server ((p.drop 4).drop 4) = w.length + 1 := by
          rw [hsv]; exact path__skip_server_append r₀ hw hd₂
        have htake : (p.take (path__skip_pfx p)).map posixToNt
            = PATH__NT_NAMESPACE ++ ['U', 'N', 'C', '\\'] ++ (w ++ ['\\']) := by
          rw [hb, hk, show 8 + (w.length + 1) = 4 + (4 + (w.length + 1))
              from by omega,
            nt_take_map hnt, List.take_add, List.map_append, hU,
            hsv, take_seg_gen]
          simp [List.map_append, posixToNt_of_dirsep hd₂, map_posixToNt_id hw,
            PATH__NT_NAMESPACE]
          exact ⟨rfl, rfl, rfl, rfl⟩
        have hdropB : p.drop (path__skip_pfx p) = r₀ := by
          rw [hb, hk, show 8 + (w.length + 1) = 4 + (4 + (w.length + 1))
              from by omega,
            show p.drop (4 + (4 + (w.length + 1)))
              = ((p.drop 4).drop 4).drop (w.length + 1) from by
                rw [List.drop_drop, List.drop_drop],
            hsv, drop_seg_gen]
        have hR : git_win32_path_canonicalize p
            = PATH__NT_NAMESPACE ++ ['U', 'N', 'C', '\\'] ++
              (w ++ '\\' :: stripTrailingBackslash (canonSegs r₀.length [] r₀)) := by
          unfold git_win32_path_canonicalize
          rw [htake, hdropB]
          simp
        rw [hR]
        exact good_suffix_nt_unc w _ hw (strip_canonSegs_good r₀)
    · by_cases habs4 : path__is_absolute (p.drop 4) = true
      · obtain ⟨x, z, t₄, hq, hx, hz⟩ := abs_shape habs4
        have hb : path__skip_pfx p = 4 + 3 := by
          unfold path__skip_pfx
          rw [if_pos hnt, if_neg hU, if_pos habs4]
        have htake : (p.take (path__skip_pfx p)).map posixToNt
            = PATH__NT_NAMESPACE ++ [x, ':', '\\'] := by
          rw [hb, nt_take_map hnt, hq,
            show ((x :: ':' :: z :: t₄).take 3).map posixToNt
              = [posixToNt x, posixToNt ':', posixToNt z] from rfl,
            posixToNt_of_not_dirsep (isalpha_not_dirsep hx),
            show posixToNt ':' = ':' from rfl,
            posixToNt_of_dirsep hz]
        have hdropB : p.drop (path__skip_pfx p) = t₄ := by
          rw [hb, show p.drop (4 + 3) = (p.drop 4).drop 3 from by
            rw [List.drop_drop], hq]
          rfl
        have hR : git_win32_path_canonicalize p
            = PATH__NT_NAMESPACE ++ x :: ':' :: '\\' ::
              stripTrailingBackslash (canonSegs t₄.length [] t₄) := by
          unfold git_win32_path_canonicalize
          rw [htake, hdropB]
          simp
        rw [hR]
        exact good_suffix_nt_abs x hx _ (strip_canonSegs_good t₄)
      · have hb : path__skip_pfx p = 4 := by
          unfold path__skip_pfx
          rw [if_pos hnt, if_neg hU, if_neg habs4]
        have htake : (p.take (path__skip_pfx p)).map posixToNt
            = PATH__NT_NAMESPACE := by
          rw [hb, show (4 : Nat) = 4 + 0 from rfl, nt_take_map hnt]
          simp
        have hR : git_win32_path_canonicalize p
            = PATH__NT_NAMESPACE ++
              stripTrailingBackslash
                (canonSegs (p.drop 4).length [] (p.drop 4)) := by
          unfold git_win32_path_canonicalize
          rw [htake, hb]
        rw [hR]
        exact marker_suffix_good _ (strip_canonSegs_good (p.drop 4))
  · by_cases habs : path__is_absolute p = true
    · obtain ⟨x, z, t, hp, hx, hz⟩ := abs_shape habs
      have hb : path__skip_pfx p = 3 := by
        unfold path__skip_pfx
        rw [if_neg hnt, if_pos habs]
      have htake : (p.take (path__skip_pfx p)).map posixToNt = [x, ':', '\\'] := by
        rw [hb, hp,
          show ((x :: ':' :: z :: t).take 3).map posixToNt
            = [posixToNt x, posixToNt ':', posixToNt z] from rfl,
          posixToNt_of_not_dirsep (isalpha_not_dirsep hx),
          show posixToNt ':' = ':' from rfl,
          posixToNt_of_dirsep hz]
      have hdropB : p.drop (path__skip_pfx p) = t := by
        rw [hb, hp]
        rfl
      have hR : git_win32_path_canonicalize p
          = x :: ':' :: '\\' ::
            stripTrailingBackslash (canonSegs t.length [] t) := by
        unfold git_win32_path_canonicalize
        rw [htake, hdropB]
        rfl
      rw [hR]
      exact good_suffix_abs x hx _ (strip_canonSegs_good t)
    · by_cases hunc : path__is_unc p = true
      · obtain ⟨d, t, hp, hd⟩ := unc_shape hunc
        have hq : p.drop 2 = t := by rw [hp]; rfl
        have hb : path__skip_pfx p = 2 + path__skip_server t := by
          unfold path__skip_pfx
          rw [if_neg hnt, if_neg habs, if_pos hunc, hq]
        rcases skip_server_split t with hall | ⟨w, d₂, r₀, ht, hw, hd₂⟩
        · have hk : path__skip_server t = t.length := path__skip_server_all hall
          have htake : (p.take (path__skip_pfx p)).map posixToNt
              = '\\' :: '\\' :: t := by
            rw [hb, hk, hp,
              show (d :: d :: t).take (2 + t.length)
                  = d :: d :: t.take t.length from by
                rw [show 2 + t.length = t.length + 1 + 1 from by omega]
                simp [List.take_succ_cons],
              List.take_length]
            show posixToNt d :: posixToNt d :: t.map posixToNt = _
            rw [posixToNt_of_dirsep hd, map_posixToNt_id hall]
          have hdropB : p.drop (path__skip_pfx p) = [] := by
            rw [hb, hk, hp,
              show (d :: d :: t).drop (2 + t.length)
                  = t.drop t.length from by
                rw [show 2 + t.length = t.length + 1 + 1 from by omega]
                simp [List.drop_succ_cons],
              List.drop_length]
          have hR : git_win32_path_canonicalize p = '\\' :: '\\' :: t := by
            unfold git_win32_path_canonicalize
            rw [htake, hdropB]
            show _ ++ stripTrailingBackslash (canonSegs 0 [] []) = _
            rw [canonSegs_nil]
            show _ ++ ([] : List Char) = _
            rw [List.append_nil]
          rw [hR]
          exact good_suffix_unc_all t hall
        · have hk : path__skip_server t = w.length + 1 := by
            rw [ht]; exact path__skip_server_append r₀ hw hd₂
          have htake : (p.take (path__skip_pfx p)).map posixToNt
              = '\\' :: '\\' :: (w ++ ['\\']) := by
            rw [hb, hk, hp,
              show (d :: d :: t).take (2 + (w.length + 1))
                  = d :: d :: t.take (w.length + 1) from by
                rw [show 2 + (w.length + 1) = w.length + 1 + 1 + 1 from by omega]
                simp [List.take_succ_cons],
              ht, take_seg_gen]
            show posixToNt d :: posixToNt d ::
              ((w ++ [d₂]).map posixToNt) = _
            rw [posixToNt_of_dirsep hd]
            simp [List.map_append, posixToNt_of_dirsep hd₂, map_posixToNt_id hw]
          have hdropB : p.drop (path__skip_pfx p) = r₀ := by
            rw [hb, hk, hp,
              show (d :: d :: t).drop (2 + (w.length + 1))
                  = t.drop (w.length + 1) from by
                rw [show 2 + (w.length + 1) = w.length + 1 + 1 + 1 from by omega]
                simp [List.drop_succ_cons],
              ht, drop_seg_gen]
          have hR : git_win32_path_canonicalize p
              = '\\' :: '\\' ::
                (w ++ '\\' ::
                  stripTrailingBackslash (canonSegs r₀.length [] r₀)) := by
            unfold git_win32_path_canonicalize
            rw [htake, hdropB]
            simp
          rw [hR]
          by_cases hqm : w = ['?']
          · subst hqm
            have e : ('\\' :: '\\' ::
                ((['?'] : List Char) ++ '\\' :: stripTrailingBackslash
                  (canonSegs r₀.length [] r₀)))
                = PATH__NT_NAMESPACE ++ stripTrailingBackslash
                  (canonSegs r₀.length [] r₀) := rfl
            rw [e]
            exact marker_suffix_good _ (strip_canonSegs_good r₀)
          · exact good_suffix_unc w _ hw hqm (strip_canonSegs_good r₀)
      · have hb : path__skip_pfx p = 0 := by
          unfold path__skip_pfx
          rw [if_neg hnt, if_neg habs, if_neg hunc]
        have hR : git_win32_path_canonicalize p
            = stripTrailingBackslash (canonSegs p.length [] p) := by
          unfold git_win32_path_canonicalize
          rw [hb]
          simp
        rw [hR]
        rcases strip_canonSegs_good p with hg | hg
        · rw [hg]
          left
          rfl
        · obtain ⟨a, t', hat, ha⟩ := hg.head_struct
          rw [hat] at hg ⊢
          have hntT : path__is_nt_namespace (a :: t') = false :=
            not_nt_of_head t' ha
          have huncT : path__is_unc (a :: t') = false := not_unc_of_head t' ha
          by_cases habsT : path__is_absolute (a :: t') = true
          · have hsk : path__skip_pfx (a :: t') = 3 := by
              unfold path__skip_pfx
              rw [if_neg (by simp [hntT]), if_pos habsT]
            rw [hsk]
            exact Or.inr (hg.abs_cut habsT)
          · have hsk : path__skip_pfx (a :: t') = 0 := by
              unfold path__skip_pfx
              rw [if_neg (by simp [hntT]), if_neg habsT,
                if_neg (by simp [huncT])]
            rw [hsk]
            right
            rw [List.drop_zero]
            exact hg

/-- C6: canonicalization is idempotent — running
`git_win32_path_canonicalize` on a buffer it has already canonicalized
leaves the buffer's contents (and hence the returned length) unchanged. -/
theorem canonicalize_idempotent (p : List Char) :
    git_win32_path_canonicalize (git_win32_path_canonicalize p)
      = git_win32_path_canonicalize p :=
  canonicalize_fixed (canonicalize_no_slash p) (canonicalize_good p)

end PathW32
